import Mathlib

/-!
Verification of the Resume-Analysis-AI core against its specification.

The development shallowly embeds the core of the repository:
  * `resume_parser.py` — text extraction, sanitization and the ingestion
    pipeline (`extract_text_from_pdf` / `_docx` / `_txt`, `sanitize_text`,
    `parse_input`);
  * `llm_orchestrator.py` — prompt construction (`build_prompt`), markdown
    fence stripping (`extract_json_from_llm_output`), structured-output
    validation (the pydantic `AnalysisResult` schema), cost accounting and the
    orchestration function `analyze_resume`.

Python strings are modelled as `List Char`.  External library behaviour that
the source delegates to is modelled where the claims need it, faithfully to
the documented behaviour of those libraries and noted in the doc comment of
the corresponding definition.
-/

set_option maxRecDepth 8000

namespace ResumeAI

/-- Python text is modelled as a list of characters. -/
abbrev Str := List Char

/-- Conversion from Lean string literals to the model representation. -/
def lc (s : String) : Str := s.data

/-- Python whitespace predicate (the ASCII whitespace
characters recognised by `str.split`/`str.strip`): space, tab, newline,
carriage return, vertical tab, form feed. -/
def pySpace (c : Char) : Bool :=
  c = ' ' || c = '\t' || c = '\n' || c = '\r' || c = '\x0b' || c = '\x0c'

/-- Python `str.strip()`: remove leading and trailing whitespace. -/
def pstrip (s : Str) : Str :=
  ((s.dropWhile pySpace).reverse.dropWhile pySpace).reverse

/-- Fuel-based implementation of Python `str.split()` (no separator
argument).  The fuel argument only drives structural recursion; the wrapper
`splitWs` always supplies enough fuel. -/
def splitWsF : Nat → Str → List Str
  | 0, _ => []
  | _ + 1, [] => []
  | f + 1, c :: cs =>
    if pySpace c then splitWsF f cs
    else (c :: cs.takeWhile (fun d => !pySpace d))
         :: splitWsF f (cs.dropWhile (fun d => !pySpace d))

/-- Python `str.split()` (no separator): the maximal non-empty runs of
non-whitespace characters. -/
def splitWs (s : Str) : List Str := splitWsF (s.length + 1) s

/-- Model of the Python expression `" ".join(words)`. -/
def joinSp : List Str → Str
  | [] => []
  | [w] => w
  | w :: ws => w ++ ' ' :: joinSp ws

/-- Whitespace collapsing step of `sanitize_text`: join of split with single
spaces. -/
def collapseWs (s : Str) : Str := joinSp (splitWs s)

/-- Fuel-based implementation of a single-token pass of the Python call
`clean_text.replace(token, "")`: a single left-to-right scan removing
non-overlapping occurrences of `t`, continuing after each removed match. -/
def removeTokF (t : Str) : Nat → Str → Str
  | 0, _ => []
  | _ + 1, [] => []
  | f + 1, c :: cs =>
    if t ≠ [] && t.isPrefixOf (c :: cs) then removeTokF t f ((c :: cs).drop t.length)
    else c :: removeTokF t f cs

/-- Python `s.replace(t, "")`. -/
def removeTok (t s : Str) : Str := removeTokF t (s.length + 1) s

/-- The denylist of suspicious prompt tokens removed by `sanitize_text`,
in the order the source iterates over them. -/
def sanitizeTokens : List Str :=
  [lc "###", lc ">>>", lc "User:", lc "Assistant:", lc "System:", lc "```"]

/-- Sequential removal of the denylist tokens (the `for token in [...]` loop
of `sanitize_text`). -/
def removeToks (s : Str) : Str :=
  sanitizeTokens.foldl (fun acc t => removeTok t acc) s

/-- Skip (the remainder of) a markup tag: drop characters up to and including
the closing angle bracket. -/
def dropTag : Str → Str
  | [] => []
  | c :: r => if c = '>' then r else dropTag r

/-- Fuel-based tag stripping: the markup-removal phase of
`BeautifulSoup(text, "lxml").get_text()`.  Tags (spans from an opening angle
bracket through the next closing angle bracket) are removed from the raw text
and inner text is kept; character references inside the kept text are still
encoded at this stage and are decoded afterwards by `entDecode`. -/
def stripTagsF : Nat → Str → Str
  | 0, _ => []
  | _ + 1, [] => []
  | f + 1, c :: cs =>
    if c = '<' then stripTagsF f (dropTag cs) else c :: stripTagsF f cs

/-- Markup tag stripping (the tag-removal phase of `get_text`). -/
def stripTags (s : Str) : Str := stripTagsF (s.length + 1) s

/-- Fuel-based decoding of HTML character references in text nodes, the way
the lxml parser decodes them before `get_text` concatenates the text: the
named references for the angle brackets, the ampersand and the double quote
become the literal character; an ampersand that starts no recognized
reference stays as text.  Decoding happens after tag removal, so a decoded
angle bracket is literal text and is never parsed as markup. -/
def entDecodeF : Nat → Str → Str
  | 0, _ => []
  | _ + 1, [] => []
  | f + 1, c :: cs =>
    if c = '&' then
      if (lc "lt;").isPrefixOf cs then '<' :: entDecodeF f (cs.drop 3)
      else if (lc "gt;").isPrefixOf cs then '>' :: entDecodeF f (cs.drop 3)
      else if (lc "amp;").isPrefixOf cs then '&' :: entDecodeF f (cs.drop 4)
      else if (lc "quot;").isPrefixOf cs then '"' :: entDecodeF f (cs.drop 5)
      else c :: entDecodeF f cs
    else c :: entDecodeF f cs

/-- Character-reference decoding of text kept by tag stripping. -/
def entDecode (s : Str) : Str := entDecodeF (s.length + 1) s

/-- Model of `BeautifulSoup(text, "lxml").get_text()`: remove markup tag
spans, then decode character references in the remaining text. -/
def get_text (s : Str) : Str := entDecode (stripTags s)

/-- Model of `sanitize_text` from `resume_parser.py`: strip markup via
`get_text`, remove the denylist tokens in order, collapse whitespace. -/
def sanitize_text (s : Str) : Str := collapseWs (removeToks (get_text s))

/-- An input file as seen by `parse_input` after the filesystem checks of
`validate_input` (existence, supported extension, non-zero size): the
extracted payload by format.  For a pdf, the per-page extracted texts; for a
docx, the per-paragraph texts; for a txt, the decoded file content. -/
inductive FileInput where
  | pdf (pages : List Str)
  | docx (paragraphs : List Str)
  | txt (content : Str)

/-- Model of `extract_text_from_pdf`: join page texts with newlines; if the
result is empty or whitespace-only, the inner `InputValidationError` raised in
the `try` block is caught by the `except` clause and re-raised with the
`"PDF extraction error: "` prefix. -/
def extract_text_from_pdf (pages : List Str) : Except Str Str :=
  let text := List.intercalate ['\n'] pages
  if pstrip text = [] then
    .error (lc "PDF extraction error: PDF file contains no extractable text.")
  else .ok text

/-- Model of `extract_text_from_docx`: join paragraph texts with newlines;
an empty or whitespace-only result raises, and the exception is re-wrapped by
the except clause of the same function. -/
def extract_text_from_docx (paragraphs : List Str) : Except Str Str :=
  let text := List.intercalate ['\n'] paragraphs
  if pstrip text = [] then
    .error (lc "DOCX extraction error: DOCX file contains no extractable text.")
  else .ok text

/-- Model of `extract_text_from_txt`: read the content; an empty or
whitespace-only content raises `"TXT file is empty."`, re-wrapped by the
except clause of the same function. -/
def extract_text_from_txt (content : Str) : Except Str Str :=
  if pstrip content = [] then
    .error (lc "TXT extraction error: TXT file is empty.")
  else .ok content

/-- Model of `parse_input` from `resume_parser.py` (after the filesystem
validation): dispatch the extractor by format, sanitize, and reject an empty
sanitized result. -/
def parse_input (f : FileInput) : Except Str Str := do
  let raw ← match f with
    | .pdf pages => extract_text_from_pdf pages
    | .docx paragraphs => extract_text_from_docx paragraphs
    | .txt content => extract_text_from_txt content
  let s := sanitize_text raw
  if s = [] then .error (lc "Sanitized text is empty.") else pure s

/-! ### Model of `llm_orchestrator.py` -/

/-- Fixed cost per 1000 tokens for gpt-3.5-turbo (`COST_PER_1K_TOKENS = 0.0015`
in the source), as an exact rational. -/
def COST_PER_1K_TOKENS : ℚ := 15 / 10000

/-- Fixed instruction header of `build_prompt` (the adjacent string literals
of the source concatenated), up to and including the job-description label. -/
def PROMPT_HEADER : Str :=
  lc ("You are an expert HR assistant. Analyze the following candidate resume against the job description. " ++
      "Extract and compare skills and experience. Output a JSON object with the following fields: " ++
      "matching_score (0-100), matched_skills (list), missing_skills (list), matched_experience (list), " ++
      "missing_experience (list), summary (string)." ++
      "\n\nJob Description:\n")

/-- Separator between the job description and the resume in `build_prompt`. -/
def PROMPT_MID : Str := lc "\n\nCandidate Resume:\n"

/-- Trailing instruction of `build_prompt`. -/
def PROMPT_TAIL : Str := lc "\n\nRespond ONLY with the JSON object."

/-- Model of `build_prompt` from `llm_orchestrator.py`. -/
def build_prompt (job_desc resume : Str) : Str :=
  PROMPT_HEADER ++ job_desc ++ PROMPT_MID ++ resume ++ PROMPT_TAIL

/-- The fixed system message of the `ChatPromptTemplate` in `analyze_resume`. -/
def SYSTEM_MESSAGE : Str :=
  lc "You are an expert HR assistant. Respond only with valid JSON as per the schema."

/-- The chat messages `format_messages` produces and `llm(prompt)` sends to the
remote service: the fixed system message followed by the human message, whose
template `"\x7binput_prompt\x7d"` renders to exactly the built prompt. -/
def messages_sent (job_desc resume : Str) : List Str :=
  [SYSTEM_MESSAGE, build_prompt job_desc resume]

/-- Token count of a list of messages under a tokenizer `tok`. -/
def tokensOfMessages (tok : Str → ℕ) (msgs : List Str) : ℕ := (msgs.map tok).sum

/-! #### JSON values and the JSON parser

The output-validation step of `analyze_resume` parses the cleaned LLM output
as JSON and validates it against the pydantic `AnalysisResult` schema.  The
JSON parser below models strict JSON parsing (`json.loads` semantics as used
by pydantic): strings reject raw control characters, numbers are sign /
digits / optional fraction / optional exponent.  It is deliberately slightly
liberal in what it accepts (any non-control character may follow a backslash
escape, leading zeros are accepted) — every strictly valid JSON document is
accepted, which is the direction the theorems need. -/

/-- Decimal representation of a JSON number: the value is
`mantissa / 10 ^ fracDigits`.  Keeping the two integer components (instead of
a normalised rational) keeps the parser and validator fully kernel-reducible;
`JNum.toRat` recovers the numeric value. -/
structure JNum where
  mantissa : ℤ
  fracDigits : ℕ
deriving DecidableEq

/-- Numeric value of a parsed JSON number. -/
def JNum.toRat (n : JNum) : ℚ := (n.mantissa : ℚ) / 10 ^ n.fracDigits

/-- Integer-arithmetic test for the range constraint `ge=0, le=100` of the
`matching_score` field. -/
def JNum.inRange0to100 (n : JNum) : Bool :=
  0 ≤ n.mantissa && n.mantissa ≤ 100 * 10 ^ n.fracDigits

/-- JSON values. -/
inductive Json where
  | null
  | bool (b : Bool)
  | num (n : JNum)
  | str (s : Str)
  | arr (elems : List Json)
  | obj (entries : List (Str × Json))

/-- Control characters, rejected inside JSON string literals. -/
def ctrl (c : Char) : Bool := c.toNat < 32

/-- Parse the body of a JSON string literal (after the opening quote), up to
and including the closing quote.  Returns the raw (still escaped) body and
the rest of the input. -/
def pStrChars : Str → Option (Str × Str)
  | [] => none
  | c :: cs =>
    if c = '"' then some ([], cs)
    else if c = '\\' then
      match cs with
      | [] => none
      | e :: cs2 =>
        if ctrl e then none
        else match pStrChars cs2 with
          | none => none
          | some (t, r) => some ('\\' :: e :: t, r)
    else if ctrl c then none
    else match pStrChars cs with
      | none => none
      | some (t, r) => some (c :: t, r)

/-- Translate a single escape character. -/
def unesc (c : Char) : Char :=
  if c = 'n' then '\n' else if c = 't' then '\t' else if c = 'r' then '\r'
  else if c = 'b' then '\x08' else if c = 'f' then '\x0c' else c

/-- Unescape a JSON string body (common single-character escapes; `\uXXXX`
sequences are kept undecoded, which no theorem below depends on). -/
def unescape : Str → Str
  | [] => []
  | '\\' :: e :: r => unesc e :: unescape r
  | c :: r => c :: unescape r

/-- Numeric value of a digit string. -/
def digitsToNat (ds : Str) : ℕ :=
  ds.foldl (fun a c => a * 10 + (c.toNat - '0'.toNat)) 0

/-- Parse an optional fraction part `.digits`; returns the fraction value and
its digit count. -/
def pFrac : Str → Option (ℕ × ℕ × Str)
  | [] => some (0, 0, [])
  | c :: r =>
    if c = '.' then
      let fs := r.takeWhile Char.isDigit
      if fs = [] then none
      else some (digitsToNat fs, fs.length, r.dropWhile Char.isDigit)
    else some (0, 0, c :: r)

/-- Parse an optional exponent part `e[+-]digits`; returns the sign and value
of the exponent. -/
def pExp : Str → Option (Bool × ℕ × Str)
  | [] => some (false, 0, [])
  | c :: r =>
    if c = 'e' ∨ c = 'E' then
      let (neg, r1) : Bool × Str :=
        match r with
        | [] => (false, [])
        | c2 :: r2 =>
          if c2 = '-' then (true, r2)
          else if c2 = '+' then (false, r2)
          else (false, c2 :: r2)
      let es := r1.takeWhile Char.isDigit
      if es = [] then none
      else some (neg, digitsToNat es, r1.dropWhile Char.isDigit)
    else some (false, 0, c :: r)

/-- Combine sign, integer part, fraction and exponent into a `JNum` whose
value is `±(intPart + frac/10^fracLen) * 10^(±expVal)`. -/
def mkJNum (neg : Bool) (intPart fracVal fracLen : ℕ) (expNeg : Bool) (expVal : ℕ) : JNum :=
  let m0 : ℤ := (intPart * 10 ^ fracLen + fracVal : ℕ)
  let m1 : ℤ := if neg then -m0 else m0
  if expNeg then ⟨m1, fracLen + expVal⟩
  else if fracLen ≤ expVal then ⟨m1 * 10 ^ (expVal - fracLen), 0⟩
  else ⟨m1, fracLen - expVal⟩

/-- Parse a JSON number. -/
def pNum : Str → Option (JNum × Str)
  | [] => none
  | c :: cs =>
    let (neg, s1) : Bool × Str := if c = '-' then (true, cs) else (false, c :: cs)
    let ds := s1.takeWhile Char.isDigit
    if ds = [] then none
    else match pFrac (s1.dropWhile Char.isDigit) with
      | none => none
      | some (fv, fl, r2) =>
        match pExp r2 with
        | none => none
        | some (en, ev, r3) => some (mkJNum neg (digitsToNat ds) fv fl en ev, r3)

mutual

/-- Parse a JSON value (fuel-based recursive descent). -/
def pVal : ℕ → Str → Option (Json × Str)
  | 0, _ => none
  | f + 1, s =>
    let s1 := s.dropWhile pySpace
    match s1 with
    | '{' :: r =>
      match r.dropWhile pySpace with
      | '}' :: r2 => some (.obj [], r2)
      | _ =>
        match pPairs f r with
        | none => none
        | some (kvs, r2) => some (.obj kvs, r2)
    | '[' :: r =>
      match r.dropWhile pySpace with
      | ']' :: r2 => some (.arr [], r2)
      | _ =>
        match pElems f r with
        | none => none
        | some (vs, r2) => some (.arr vs, r2)
    | '"' :: r =>
      match pStrChars r with
      | none => none
      | some (t, r2) => some (.str (unescape t), r2)
    | 't' :: _ => if (lc "true").isPrefixOf s1 then some (.bool true, s1.drop 4) else none
    | 'f' :: _ => if (lc "false").isPrefixOf s1 then some (.bool false, s1.drop 5) else none
    | 'n' :: _ => if (lc "null").isPrefixOf s1 then some (.null, s1.drop 4) else none
    | _ =>
      match pNum s1 with
      | none => none
      | some (q, r) => some (.num q, r)

/-- Parse the members of a JSON object (after the opening brace, at least one
pair), up to and including the closing brace. -/
def pPairs : ℕ → Str → Option (List (Str × Json) × Str)
  | 0, _ => none
  | f + 1, s =>
    match s.dropWhile pySpace with
    | '"' :: r =>
      match pStrChars r with
      | none => none
      | some (k, r1) =>
        match r1.dropWhile pySpace with
        | ':' :: r3 =>
          match pVal f r3 with
          | none => none
          | some (v, r4) =>
            match r4.dropWhile pySpace with
            | ',' :: r6 =>
              match pPairs f r6 with
              | none => none
              | some (kvs, r7) => some ((unescape k, v) :: kvs, r7)
            | '}' :: r6 => some ([(unescape k, v)], r6)
            | _ => none
        | _ => none
    | _ => none

/-- Parse the elements of a JSON array (after the opening bracket, at least
one element), up to and including the closing bracket. -/
def pElems : ℕ → Str → Option (List Json × Str)
  | 0, _ => none
  | f + 1, s =>
    match pVal f s with
    | none => none
    | some (v, r) =>
      match r.dropWhile pySpace with
      | ',' :: r2 =>
        match pElems f r2 with
        | none => none
        | some (vs, r3) => some (v :: vs, r3)
      | ']' :: r2 => some ([v], r2)
      | _ => none

end

/-- Parse a complete JSON document: a single value, with only whitespace
allowed after it. -/
def jparseDoc (s : Str) : Option Json :=
  match pVal (2 * s.length + 4) s with
  | some (v, r) => if r.all pySpace then some v else none
  | none => none

/-! #### Output validation against the `AnalysisResult` schema -/

/-- The pydantic model `AnalysisResult` of `llm_orchestrator.py`.
`cost_estimate` mirrors the source field `Optional[Dict[str, Any]] = None`,
holding an arbitrary JSON dictionary when present. -/
structure AnalysisResult where
  matching_score : ℚ
  matched_skills : List Str
  missing_skills : List Str
  matched_experience : List Str
  missing_experience : List Str
  summary : Str
  cost_estimate : Option (List (Str × Json)) := none

/-- The error classification of the output-validation step (the
`MalformedOutput` family of the specification; in the source every such
failure raises through the except clauses of `analyze_resume`). -/
inductive AnalysisError where
  | malformedOutput (detail : Str)

/-- Python dictionary lookup for an object built by `json.loads`: the last
occurrence of a duplicated key wins. -/
def jlookup : List (Str × Json) → Str → Option Json
  | [], _ => none
  | (k1, v) :: rest, k =>
    match jlookup rest k with
    | some v2 => some v2
    | none => if k1 = k then some v else none

/-- Model of pydantic v2 lax validation of a `float` field from JSON input:
a JSON number is accepted, and — per the pydantic conversion rules — a string
holding a number is coerced to that number; every other JSON type is
rejected.  (The special strings pydantic maps to infinity and NaN are
rejected here; such values fail the `ge=0, le=100` range check anyway, so
accepted/rejected behaviour of the whole validator is unaffected.) -/
def coerceFloat : Json → Option JNum
  | .num n => some n
  | .str s =>
    match pNum (pstrip s) with
    | some (n, r) => if r = [] then some n else none
    | none => none
  | _ => none

/-- Validate a `List[str]` field value: must be a JSON array of strings
(pydantic v2 does not coerce non-string items). -/
def strItems : List Json → Option (List Str)
  | [] => some []
  | .str s :: rest =>
    match strItems rest with
    | none => none
    | some l => some (s :: l)
  | _ => none

/-- Validate a required `List[str]` field of the schema. -/
def reqStrList (kvs : List (Str × Json)) (k : Str) : Except AnalysisError (List Str) :=
  match jlookup kvs k with
  | none => .error (.malformedOutput (k ++ lc ": field required"))
  | some (.arr xs) =>
    match strItems xs with
    | none => .error (.malformedOutput (k ++ lc ": not a list of strings"))
    | some l => pure l
  | some _ => .error (.malformedOutput (k ++ lc ": not a list"))

/-- Validate a parsed JSON object against the `AnalysisResult` schema:
required fields, pydantic-lax types, and the `ge=0, le=100` range constraint
on `matching_score`.  Extra keys are ignored (pydantic default). -/
def validateParsed (kvs : List (Str × Json)) : Except AnalysisError AnalysisResult :=
  match jlookup kvs (lc "matching_score") with
  | none => .error (.malformedOutput (lc "matching_score: field required"))
  | some scoreJson =>
    match coerceFloat scoreJson with
    | none => .error (.malformedOutput (lc "matching_score: not a number"))
    | some n =>
      if !n.inRange0to100 then
        .error (.malformedOutput (lc "matching_score: out of range"))
      else
        match reqStrList kvs (lc "matched_skills") with
        | .error e => .error e
        | .ok ms =>
          match reqStrList kvs (lc "missing_skills") with
          | .error e => .error e
          | .ok mis =>
            match reqStrList kvs (lc "matched_experience") with
            | .error e => .error e
            | .ok me =>
              match reqStrList kvs (lc "missing_experience") with
              | .error e => .error e
              | .ok mie =>
                match jlookup kvs (lc "summary") with
                | none => .error (.malformedOutput (lc "summary: field required"))
                | some (.str sm) =>
                  match jlookup kvs (lc "cost_estimate") with
                  | none => .ok ⟨n.toRat, ms, mis, me, mie, sm, none⟩
                  | some .null => .ok ⟨n.toRat, ms, mis, me, mie, sm, none⟩
                  | some (.obj d) => .ok ⟨n.toRat, ms, mis, me, mie, sm, some d⟩
                  | some _ => .error (.malformedOutput (lc "cost_estimate: not a dict"))
                | some _ => .error (.malformedOutput (lc "summary: not a string"))

/-- The output-validation step: parse the cleaned text as JSON and validate
the schema.  Fails closed on anything that is not a JSON object satisfying
the schema. -/
def validateOutput (cleaned : Str) : Except AnalysisError AnalysisResult :=
  match jparseDoc cleaned with
  | some (.obj kvs) => validateParsed kvs
  | some _ => .error (.malformedOutput (lc "not a JSON object"))
  | none => .error (.malformedOutput (lc "invalid JSON"))

/-! #### Markdown fence stripping -/

/-- Case-insensitive test for the optional `json` language tag after an
opening fence (the `(?:json)?` group with `re.IGNORECASE`). -/
def ciJson : Str → Bool
  | a :: b :: c :: d :: _ =>
    a.toLower = 'j' && b.toLower = 's' && c.toLower = 'o' && d.toLower = 'n'
  | _ => false

/-- Fuel-based model of the substitution
`re.sub(r"^```(?:json)?\s*|```$", "", text, flags=re.IGNORECASE | re.MULTILINE)`:
a left-to-right scan.  The flag `ls` records whether the current position is
at a line start (string start or just after a newline).  At a line start, an
opening fence with optional language tag and all following whitespace is
removed (the first alternative; `\s*` is greedy); otherwise a closing fence
immediately before a newline or at the end of the input is removed (the
second alternative, `$` under `re.MULTILINE`); otherwise the character is
kept. -/
def fenceSubF : ℕ → Str → Bool → Str
  | 0, _, _ => []
  | _ + 1, [], _ => []
  | f + 1, c :: cs, ls =>
    if ls && (lc "```").isPrefixOf (c :: cs) then
      let r1 := (c :: cs).drop 3
      let r2 := if ciJson r1 then r1.drop 4 else r1
      fenceSubF f (r2.dropWhile pySpace) ((r2.takeWhile pySpace).getLast? == some '\n')
    else if (lc "```").isPrefixOf (c :: cs)
        && (((c :: cs).drop 3).isEmpty || (((c :: cs).drop 3).head? == some '\n')) then
      fenceSubF f ((c :: cs).drop 3) false
    else c :: fenceSubF f cs (c == '\n')

/-- The regex substitution of `extract_json_from_llm_output`, starting at a
line start. -/
def fenceSub (s : Str) : Str := fenceSubF (s.length + 1) s true

/-- Model of `extract_json_from_llm_output`: strip, remove fences, strip. -/
def extract_json_from_llm_output (text : Str) : Str :=
  pstrip (fenceSub (pstrip text))

/-- Absence of an adjacent pair of characters: `noAdj x y s` holds when no
occurrence of `x` in `s` is immediately followed by `y`.  Used to show that
the fence-stripping regex leaves the body of a JSON document untouched. -/
def noAdj (x y : Char) : Str → Bool
  | a :: b :: t => (!(a == x && b == y)) && noAdj x y (b :: t)
  | _ => true

/-- Invariant of text consumed by the JSON parser: no backtick directly after
a newline, no newline directly after a backtick, and no backtick as the first
or last character.  Text with this property is invisible to both alternatives
of the fence-stripping regex. -/
def Ipred (s : Str) : Prop :=
  noAdj '\n' '`' s = true ∧ noAdj '`' '\n' s = true ∧
  s.head? ≠ some '`' ∧ s.getLast? ≠ some '`'

/-! #### Cost accounting and orchestration -/

/-- Round-half-even (Python `round`) to an integer. -/
def roundHalfEven (q : ℚ) : ℤ :=
  if q - ⌊q⌋ < 1 / 2 then ⌊q⌋
  else if 1 / 2 < q - ⌊q⌋ then ⌊q⌋ + 1
  else if 2 ∣ ⌊q⌋ then ⌊q⌋ else ⌊q⌋ + 1

/-- Python `round(x, 6)` over exact rationals. -/
def round6 (q : ℚ) : ℚ := (roundHalfEven (q * 10 ^ 6) : ℚ) / 10 ^ 6

/-- The cost-attachment step of `analyze_resume`: set `cost_estimate` to the
dictionary the source builds, leaving every other field unchanged.
`total_tokens` is the sum of the two counts and `usd` is
`total / 1000 * price` rounded to 6 decimal places. -/
def attachCost (r : AnalysisResult) (prompt_tokens completion_tokens : ℕ)
    (price : ℚ) : AnalysisResult :=
  { r with cost_estimate := some [
      (lc "prompt_tokens", .num ⟨prompt_tokens, 0⟩),
      (lc "completion_tokens", .num ⟨completion_tokens, 0⟩),
      (lc "total_tokens", .num ⟨prompt_tokens + completion_tokens, 0⟩),
      (lc "usd", .num ⟨roundHalfEven ((prompt_tokens + completion_tokens : ℚ) / 1000 * price * 10 ^ 6), 6⟩)] }

/-- Model of `analyze_resume` from `llm_orchestrator.py`.  The remote LLM
round trip is modelled by passing in the raw response content; `tok` models
`count_tokens` (the tiktoken tokenizer of the target model, whose BPE
vocabulary is external binary data, so it is a parameter of the model — the
theorems below hold for every tokenizer).  Prompt tokens are counted on the
built user prompt, completion tokens on the raw response content; the cleaned
output is parsed and validated, and on success the cost estimate is attached
to the validated result. -/
def analyze_resume (tok : Str → ℕ) (job_desc resume : Str) (responseContent : Str) :
    Except AnalysisError AnalysisResult :=
  let input_prompt := build_prompt job_desc resume
  let prompt_tokens := tok input_prompt
  let cleaned_output := extract_json_from_llm_output responseContent
  let completion_tokens := tok responseContent
  match validateOutput cleaned_output with
  | .error e => .error e
  | .ok result => .ok (attachCost result prompt_tokens completion_tokens COST_PER_1K_TOKENS)

/-- A well-formed sample LLM response, used for concrete witnesses. -/
def sampleResponse : Str :=
  lc "\x7b\"matching_score\": 90, \"matched_skills\": [\"Python\"], \"missing_skills\": [], \"matched_experience\": [\"backend\"], \"missing_experience\": [], \"summary\": \"Strong match\"\x7d"

/-- A pre-validation result record with empty fields, used to exercise
`attachCost` on its own. -/
def emptyAnalysisResult : AnalysisResult :=
  { matching_score := 0, matched_skills := [], missing_skills := [],
    matched_experience := [], missing_experience := [], summary := [],
    cost_estimate := none }

/-- A concrete tokenizer used to instantiate the tokenizer parameter in
closed statements: the character count.  It shares with the tiktoken
tokenizer of the source the property every such argument needs below: a
non-empty text has a positive token count. -/
def lenTok (s : Str) : ℕ := s.length

/-! ### Lemmas about the sanitization pipeline -/

theorem dropTag_length_le (s : Str) : (dropTag s).length ≤ s.length := by
  induction s with
  | nil => simp [dropTag]
  | cons c cs ih =>
    simp only [dropTag]
    split
    · simp
    · simpa using Nat.le_succ_of_le ih

theorem stripTagsF_no_lt : ∀ f (s : Str), s.length < f → '<' ∉ stripTagsF f s := by
  intro f
  induction f with
  | zero => intro s h; omega
  | succ f ih =>
    intro s h
    match s with
    | [] => simp [stripTagsF]
    | c :: cs =>
      simp only [stripTagsF]
      simp only [List.length_cons] at h
      by_cases hc : c = '<'
      · simp only [hc, if_pos rfl]
        exact ih _ (Nat.lt_of_le_of_lt (dropTag_length_le cs) (by omega))
      · simp only [if_neg hc, List.mem_cons, not_or]
        exact ⟨fun hne => hc hne.symm, ih cs (by omega)⟩

theorem stripTags_no_lt (s : Str) : '<' ∉ stripTags s :=
  stripTagsF_no_lt _ s (Nat.lt_succ_self _)

theorem stripTagsF_id : ∀ f (s : Str), s.length < f → '<' ∉ s → stripTagsF f s = s := by
  intro f
  induction f with
  | zero => intro s h; omega
  | succ f ih =>
    intro s h hlt
    match s with
    | [] => simp [stripTagsF]
    | c :: cs =>
      simp only [List.mem_cons, not_or] at hlt
      simp only [List.length_cons] at h
      have hcne : ¬ c = '<' := fun hcc => hlt.1 hcc.symm
      simp only [stripTagsF, if_neg hcne]
      rw [ih cs (by omega) hlt.2]

theorem stripTags_id (s : Str) (h : '<' ∉ s) : stripTags s = s :=
  stripTagsF_id _ s (Nat.lt_succ_self _) h

theorem removeTokF_subset (t : Str) :
    ∀ f (s : Str) c, c ∈ removeTokF t f s → c ∈ s := by
  intro f
  induction f with
  | zero => intro s c h; simp [removeTokF] at h
  | succ f ih =>
    intro s c h
    match s with
    | [] => simp [removeTokF] at h
    | a :: as =>
      simp only [removeTokF] at h
      split at h
      · exact List.mem_of_mem_drop (ih _ c h)
      · rcases List.mem_cons.mp h with h | h
        · simp [h]
        · exact List.mem_cons_of_mem _ (ih _ c h)

theorem removeTok_subset (t s : Str) (c : Char) (h : c ∈ removeTok t s) : c ∈ s :=
  removeTokF_subset t _ s c h

theorem removeToks_subset (s : Str) (c : Char) (h : c ∈ removeToks s) : c ∈ s := by
  simp only [removeToks, sanitizeTokens, List.foldl] at h
  exact removeTok_subset _ _ _ (removeTok_subset _ _ _ (removeTok_subset _ _ _
    (removeTok_subset _ _ _ (removeTok_subset _ _ _ (removeTok_subset _ _ _ h)))))

theorem removeTokF_id (t : Str) :
    ∀ f (s : Str), s.length < f → ¬ t <:+: s → removeTokF t f s = s := by
  intro f
  induction f with
  | zero => intro s h; omega
  | succ f ih =>
    intro s h hinf
    match s with
    | [] => simp [removeTokF]
    | a :: as =>
      have hpre : ¬ t.isPrefixOf (a :: as) = true := by
        intro hp
        exact hinf (List.IsPrefix.isInfix (List.isPrefixOf_iff_prefix.mp hp))
      simp only [List.length_cons] at h
      simp only [removeTokF]
      rw [if_neg (by simp [hpre])]
      rw [ih as (by omega) (fun hi => hinf (List.infix_cons hi))]

theorem removeTok_id (t s : Str) (h : ¬ t <:+: s) : removeTok t s = s :=
  removeTokF_id t _ s (Nat.lt_succ_self _) h

theorem removeToks_id (s : Str) (h : ∀ t ∈ sanitizeTokens, ¬ t <:+: s) :
    removeToks s = s := by
  simp only [removeToks, sanitizeTokens, List.foldl]
  rw [removeTok_id _ _ (h _ (by simp [sanitizeTokens])),
      removeTok_id _ _ (h _ (by simp [sanitizeTokens])),
      removeTok_id _ _ (h _ (by simp [sanitizeTokens])),
      removeTok_id _ _ (h _ (by simp [sanitizeTokens])),
      removeTok_id _ _ (h _ (by simp [sanitizeTokens])),
      removeTok_id _ _ (h _ (by simp [sanitizeTokens]))]

theorem joinSp_mem {c : Char} : ∀ ws : List Str, c ∈ joinSp ws →
    c = ' ' ∨ ∃ w ∈ ws, c ∈ w := by
  intro ws
  induction ws with
  | nil => intro h; simp [joinSp] at h
  | cons w ws ih =>
    intro h
    match ws with
    | [] =>
      right; exact ⟨w, by simp, by simpa [joinSp] using h⟩
    | x :: t =>
      have : c ∈ w ++ ' ' :: joinSp (x :: t) := h
      rcases List.mem_append.mp this with h1 | h1
      · right; exact ⟨w, by simp, h1⟩
      · rcases List.mem_cons.mp h1 with h2 | h2
        · left; exact h2
        · rcases ih h2 with h3 | ⟨w', hw', hc⟩
          · left; exact h3
          · right; exact ⟨w', List.mem_cons_of_mem _ hw', hc⟩

theorem splitWsF_subset :
    ∀ f (s : Str) w, w ∈ splitWsF f s → ∀ c ∈ w, c ∈ s := by
  intro f
  induction f with
  | zero => intro s w h; simp [splitWsF] at h
  | succ f ih =>
    intro s w h
    match s with
    | [] => simp [splitWsF] at h
    | a :: as =>
      simp only [splitWsF] at h
      split at h
      · intro c hc
        exact List.mem_cons_of_mem _ (ih _ _ h c hc)
      · rcases List.mem_cons.mp h with h1 | h1
        · intro c hc
          subst h1
          rcases List.mem_cons.mp hc with h2 | h2
          · simp [h2]
          · exact List.mem_cons_of_mem _ ((as.takeWhile_sublist _).subset h2)
        · intro c hc
          exact List.mem_cons_of_mem _ ((as.dropWhile_sublist _).subset (ih _ _ h1 c hc))

theorem collapseWs_mem {c : Char} (s : Str) (h : c ∈ collapseWs s) :
    c = ' ' ∨ c ∈ s := by
  rcases joinSp_mem _ h with h1 | ⟨w, hw, hc⟩
  · left; exact h1
  · right; exact splitWsF_subset _ s w hw c hc

theorem entDecodeF_id : ∀ f (s : Str), s.length < f → '&' ∉ s → entDecodeF f s = s := by
  intro f
  induction f with
  | zero => intro s h; omega
  | succ f ih =>
    intro s h hin
    match s with
    | [] => simp [entDecodeF]
    | c :: cs =>
      simp only [List.mem_cons, not_or] at hin
      simp only [List.length_cons] at h
      have hcne : ¬ c = '&' := fun hcc => hin.1 hcc.symm
      simp only [entDecodeF, if_neg hcne]
      rw [ih cs (by omega) hin.2]

theorem entDecode_id (s : Str) (h : '&' ∉ s) : entDecode s = s :=
  entDecodeF_id _ s (Nat.lt_succ_self _) h

theorem get_text_id (s : Str) (h1 : '<' ∉ s) (h2 : '&' ∉ s) : get_text s = s := by
  unfold get_text
  rw [stripTags_id s h1, entDecode_id s h2]

theorem takeWhile_all {p : Char → Bool} :
    ∀ l : Str, (∀ a ∈ l, p a = true) → l.takeWhile p = l ∧ l.dropWhile p = [] := by
  intro l
  induction l with
  | nil => intro _; simp
  | cons a as ih =>
    intro h
    have ha : p a = true := h a (by simp)
    have := ih (fun b hb => h b (List.mem_cons_of_mem _ hb))
    simp [List.takeWhile_cons, List.dropWhile_cons, ha, this.1, this.2]

theorem takeWhile_all_append {p : Char → Bool} :
    ∀ (xs : Str) (y : Char) (ys : Str), (∀ a ∈ xs, p a = true) → p y = false →
      (xs ++ y :: ys).takeWhile p = xs ∧ (xs ++ y :: ys).dropWhile p = y :: ys := by
  intro xs y ys
  induction xs with
  | nil => intro _ hy; simp [List.takeWhile_cons, List.dropWhile_cons, hy]
  | cons a as ih =>
    intro h hy
    have ha : p a = true := h a (by simp)
    have := ih (fun b hb => h b (List.mem_cons_of_mem _ hb)) hy
    simp [List.takeWhile_cons, List.dropWhile_cons, ha, this.1, this.2]

theorem splitWsF_words :
    ∀ f (s : Str), s.length < f → ∀ w ∈ splitWsF f s,
      w ≠ [] ∧ ∀ c ∈ w, pySpace c = false := by
  intro f
  induction f with
  | zero => intro s h; omega
  | succ f ih =>
    intro s h w hw
    match s with
    | [] => simp [splitWsF] at hw
    | a :: as =>
      simp only [List.length_cons] at h
      simp only [splitWsF] at hw
      split at hw
      · exact ih as (by omega) w hw
      · rcases List.mem_cons.mp hw with h1 | h1
        · subst h1
          refine ⟨by simp, ?_⟩
          intro c hc
          rcases List.mem_cons.mp hc with h2 | h2
          · subst h2
            rename_i hns
            simpa using hns
          · have := List.mem_takeWhile_imp h2
            simpa using this
        · have hd := (as.dropWhile_sublist (fun d => !pySpace d)).length_le
          exact ih _ (by omega) w h1

theorem splitWsF_cons_nonspace (f : Nat) (c : Char) (cs : Str) (hc : pySpace c = false) :
    splitWsF (f + 1) (c :: cs)
      = (c :: cs.takeWhile (fun d => !pySpace d))
        :: splitWsF f (cs.dropWhile (fun d => !pySpace d)) := by
  simp [splitWsF, hc]

theorem splitWsF_cons_space (f : Nat) (c : Char) (cs : Str) (hc : pySpace c = true) :
    splitWsF (f + 1) (c :: cs) = splitWsF f cs := by
  simp [splitWsF, hc]

theorem splitWsF_joinSp :
    ∀ (ws : List Str) (f : Nat), (joinSp ws).length < f →
      (∀ w ∈ ws, w ≠ [] ∧ ∀ c ∈ w, pySpace c = false) →
      splitWsF f (joinSp ws) = ws := by
  intro ws
  induction ws with
  | nil =>
    intro f h _
    cases f with
    | zero => omega
    | succ f => simp [joinSp, splitWsF]
  | cons w ws ih =>
    intro f h hprops
    have hw := hprops w (by simp)
    match ws with
    | [] =>
      match hww : w with
      | [] => exact absurd rfl hw.1
      | c :: cs =>
        subst hww
        have hj : joinSp [c :: cs] = c :: cs := rfl
        rw [hj] at h ⊢
        cases f with
        | zero => omega
        | succ f =>
          have hc : pySpace c = false := hw.2 c (by simp)
          have hcs : ∀ a ∈ cs, (fun d => !pySpace d) a = true := fun a ha => by
            simp [hw.2 a (by simp [ha])]
          have htk := takeWhile_all cs hcs
          rw [splitWsF_cons_nonspace f c cs hc, htk.1, htk.2]
          have hf : 0 < f := by
            simp only [List.length_cons] at h; omega
          cases f with
          | zero => omega
          | succ f => simp [splitWsF]
    | x :: t =>
      match hww : w with
      | [] => exact absurd rfl hw.1
      | c :: cs =>
        subst hww
        have hj : joinSp ((c :: cs) :: x :: t) = c :: (cs ++ ' ' :: joinSp (x :: t)) := rfl
        rw [hj] at h ⊢
        cases f with
        | zero => omega
        | succ f =>
          have hc : pySpace c = false := hw.2 c (by simp)
          have hcs : ∀ a ∈ cs, (fun d => !pySpace d) a = true := fun a ha => by
            simp [hw.2 a (by simp [ha])]
          have htk := takeWhile_all_append cs ' ' (joinSp (x :: t)) hcs (by decide)
          rw [splitWsF_cons_nonspace f c _ hc, htk.1, htk.2]
          have hlen : (joinSp (x :: t)).length + 1 < f := by
            simp only [List.length_cons, List.length_append] at h; omega
          cases f with
          | zero => omega
          | succ f =>
            rw [splitWsF_cons_space f ' ' _ (by decide)]
            rw [ih f (by omega) (fun u hu => hprops u (List.mem_cons_of_mem (c :: cs) hu))]

theorem collapseWs_idem (s : Str) : collapseWs (collapseWs s) = collapseWs s := by
  unfold collapseWs
  congr 1
  unfold splitWs
  exact splitWsF_joinSp (splitWsF (s.length + 1) s) _ (Nat.lt_succ_self _)
    (splitWsF_words _ s (Nat.lt_succ_self _))

theorem parse_input_ok {inp : FileInput} {res : Str} (h : parse_input inp = .ok res) :
    ∃ raw, res = sanitize_text raw ∧ res ≠ [] := by
  have hgen : ∀ (e : Except Str Str),
      (e.bind (fun raw => if sanitize_text raw = [] then
          Except.error (lc "Sanitized text is empty.")
        else pure (sanitize_text raw))) = .ok res →
      ∃ raw, res = sanitize_text raw ∧ res ≠ [] := by
    intro e he
    cases e with
    | error m => simp [Except.bind] at he
    | ok raw =>
      simp only [Except.bind] at he
      split at he
      · exact absurd he (by simp)
      · rename_i hs
        injection he with he
        exact ⟨raw, he.symm, he ▸ hs⟩
  cases inp with
  | pdf pages => exact hgen (extract_text_from_pdf pages) h
  | docx paragraphs => exact hgen (extract_text_from_docx paragraphs) h
  | txt content => exact hgen (extract_text_from_txt content) h

/-! ### Claim C1 -/

/-- Claim C1 (amended): whenever `parse_input` returns successfully, the
returned string is non-empty and whitespace-collapsed (a fixed point of the
final join-of-split step, so single spaces only, none leading or trailing).
Both further parts of the original claim are false, see the counterexample:
character-reference decoding by the html parser can put an angle bracket and
even literal tag text into the returned string, and removing a later denylist
token can recreate an earlier one. -/
theorem parse_input_clean :
    ∀ (inp : FileInput) (res : Str), parse_input inp = .ok res →
      res ≠ [] ∧ collapseWs res = res := by
  intro inp res h
  obtain ⟨raw, hres, hne⟩ := parse_input_ok h
  refine ⟨hne, ?_⟩
  rw [hres]
  exact collapseWs_idem (removeToks (get_text raw))

/-- Witness for `parse_input_clean` at a concrete txt input. -/
theorem parse_input_clean_witness :
    lc "hello" ≠ [] ∧ collapseWs (lc "hello") = lc "hello" :=
  parse_input_clean (.txt (lc "hello")) (lc "hello") rfl

/-- Counterexample to claim C1 as stated, in both respects.  The txt content
`#>>>##` passes the ingestion pipeline and the returned text is exactly the
denylist token `###` (removing `>>>` glues the surrounding hash characters
together after the `###` pass has already run).  The txt content `5&lt;10`
passes the pipeline and the returned text is `5<10`: the parser decodes the
character reference, so an angle bracket survives sanitization. -/
theorem parse_input_token_counterexample :
    parse_input (.txt (lc "#>>>##")) = .ok (lc "###") ∧
    lc "###" ∈ sanitizeTokens ∧ lc "###" <:+: lc "###" ∧
    parse_input (.txt (lc "5&lt;10")) = .ok (lc "5<10") ∧
    '<' ∈ lc "5<10" :=
  ⟨rfl, by simp [sanitizeTokens], List.infix_refl _, rfl, by decide⟩

/-! ### Claim C3 -/

/-- Claim C3 (amended): sanitization is idempotent on every string whose
sanitized output contains none of the denylist tokens, no opening angle
bracket and no ampersand (so the second tag-stripping and reference-decoding
pass leaves it unchanged).  Unconditional idempotence, as originally claimed,
fails in two ways: token removal can recreate a denylist token, and decoded
character references can leave literal markup that a second pass strips; see
the counterexample. -/
theorem sanitize_text_idem :
    ∀ x : Str, (∀ t ∈ sanitizeTokens, ¬ t <:+: sanitize_text x) →
      '<' ∉ sanitize_text x → '&' ∉ sanitize_text x →
      sanitize_text (sanitize_text x) = sanitize_text x := by
  intro x h hlt hamp
  have h1 : get_text (sanitize_text x) = sanitize_text x :=
    get_text_id _ hlt hamp
  calc sanitize_text (sanitize_text x)
      = collapseWs (removeToks (get_text (sanitize_text x))) := rfl
    _ = collapseWs (removeToks (sanitize_text x)) := by rw [h1]
    _ = collapseWs (sanitize_text x) := by rw [removeToks_id _ h]
    _ = collapseWs (collapseWs (removeToks (get_text x))) := rfl
    _ = collapseWs (removeToks (get_text x)) := collapseWs_idem _
    _ = sanitize_text x := rfl

/-- Witness for `sanitize_text_idem` at a concrete clean input. -/
theorem sanitize_text_idem_witness :
    sanitize_text (sanitize_text (lc "hello world")) = sanitize_text (lc "hello world") :=
  sanitize_text_idem (lc "hello world") (by decide) (by decide) (by decide)

/-- Counterexample to claim C3 as stated: `sanitize_text` is not idempotent,
in two independent ways.  On `#>>>##` one application yields `###` (the `>>>`
removal recreates a `###` after the `###` pass already ran), and a second
application removes it, yielding the empty string.  On `a &lt;b&gt; c` one
application yields `a <b> c` (the references decode to literal text), and a
second application strips the now-literal tag, yielding `a c`. -/
theorem sanitize_text_not_idempotent :
    sanitize_text (lc "#>>>##") = lc "###" ∧
    sanitize_text (sanitize_text (lc "#>>>##")) = [] ∧
    sanitize_text (sanitize_text (lc "#>>>##")) ≠ sanitize_text (lc "#>>>##") ∧
    sanitize_text (lc "a &lt;b&gt; c") = lc "a <b> c" ∧
    sanitize_text (sanitize_text (lc "a &lt;b&gt; c")) = lc "a c" ∧
    sanitize_text (sanitize_text (lc "a &lt;b&gt; c")) ≠
      sanitize_text (lc "a &lt;b&gt; c") :=
  ⟨rfl, rfl, by decide, rfl, rfl, by decide⟩

/-! ### Claim C4 -/

/-- Claim C4 (amended): an empty or whitespace-only concatenated extraction
fails, but the error detail is not the bare string claimed.  For pdf and docx
the inner message `"<FMT> file contains no extractable text."` is re-wrapped
by the except clause of the same function into
`"<FMT> extraction error: <inner>"`; for txt the inner message is
`"TXT file is empty."`. -/
theorem extraction_empty_messages :
    (∀ pages, pstrip (List.intercalate ['\n'] pages) = [] →
      extract_text_from_pdf pages =
        .error (lc "PDF extraction error: PDF file contains no extractable text.")) ∧
    (∀ paragraphs, pstrip (List.intercalate ['\n'] paragraphs) = [] →
      extract_text_from_docx paragraphs =
        .error (lc "DOCX extraction error: DOCX file contains no extractable text.")) ∧
    (∀ content, pstrip content = [] →
      extract_text_from_txt content =
        .error (lc "TXT extraction error: TXT file is empty.")) := by
  refine ⟨fun pages h => ?_, fun paragraphs h => ?_, fun content h => ?_⟩
  · simp [extract_text_from_pdf, h]
  · simp [extract_text_from_docx, h]
  · simp [extract_text_from_txt, h]

/-- Witness for `extraction_empty_messages` at a concrete whitespace-only
txt content. -/
theorem extraction_empty_messages_witness :
    extract_text_from_txt (lc "\n\t ") =
      .error (lc "TXT extraction error: TXT file is empty.") :=
  extraction_empty_messages.2.2 (lc "\n\t ") rfl

/-- Counterexample to claim C4 as stated: on a whitespace-only txt file the
error detail is `"TXT extraction error: TXT file is empty."`, not the claimed
`"TXT file contains no extractable text"`. -/
theorem extraction_empty_message_counterexample :
    extract_text_from_txt (lc " ") =
      .error (lc "TXT extraction error: TXT file is empty.") ∧
    lc "TXT extraction error: TXT file is empty." ≠
      lc "TXT file contains no extractable text" :=
  ⟨rfl, by decide⟩

/-! ### Lemmas about the orchestrator model -/

theorem JNum.inRange_iff (n : JNum) :
    n.inRange0to100 = true ↔ 0 ≤ n.toRat ∧ n.toRat ≤ 100 := by
  have h10 : (0 : ℚ) < 10 ^ n.fracDigits := by positivity
  unfold JNum.inRange0to100 JNum.toRat
  rw [Bool.and_eq_true, decide_eq_true_eq, decide_eq_true_eq,
      le_div_iff₀ h10, div_le_iff₀ h10]
  constructor
  · rintro ⟨h1, h2⟩
    refine ⟨?_, ?_⟩
    · rw [zero_mul]; exact_mod_cast h1
    · exact_mod_cast h2
  · rintro ⟨h1, h2⟩
    rw [zero_mul] at h1
    exact ⟨by exact_mod_cast h1, by exact_mod_cast h2⟩

theorem roundHalfEven_nonneg (q : ℚ) (h : 0 ≤ q) : 0 ≤ roundHalfEven q := by
  have hfl : (0 : ℤ) ≤ ⌊q⌋ := by
    rw [Int.le_floor]; exact_mod_cast h
  unfold roundHalfEven
  split
  · exact hfl
  · split
    · omega
    · split <;> omega

theorem analyze_resume_eq (tok : Str → ℕ) (job_desc resume responseContent : Str) :
    analyze_resume tok job_desc resume responseContent =
      match validateOutput (extract_json_from_llm_output responseContent) with
      | .error e => .error e
      | .ok result =>
        .ok (attachCost result (tok (build_prompt job_desc resume))
              (tok responseContent) COST_PER_1K_TOKENS) := rfl

theorem nlFree_append_cancel :
    ∀ (a1 a2 x y : Str), '\n' ∉ a1 → '\n' ∉ a2 →
      x.head? = some '\n' → y.head? = some '\n' →
      a1 ++ x = a2 ++ y → a1 = a2 ∧ x = y := by
  intro a1
  induction a1 with
  | nil =>
    intro a2 x y _ h2 hx hy heq
    match a2 with
    | [] => exact ⟨rfl, heq⟩
    | c :: t2 =>
      exfalso
      simp only [List.nil_append, List.cons_append] at heq
      rw [heq] at hx
      simp only [List.head?_cons, Option.some_inj] at hx
      exact h2 (by rw [← hx]; exact List.mem_cons_self c t2)
  | cons c t1 ih =>
    intro a2 x y h1 h2 hx hy heq
    match a2 with
    | [] =>
      exfalso
      simp only [List.nil_append, List.cons_append] at heq
      rw [← heq] at hy
      simp only [List.head?_cons, Option.some_inj] at hy
      exact h1 (by rw [← hy]; exact List.mem_cons_self c t1)
    | c2 :: t2 =>
      simp only [List.cons_append, List.cons.injEq] at heq
      obtain ⟨hc, heq2⟩ := heq
      have := ih t2 x y (fun hm => h1 (List.mem_cons_of_mem _ hm))
        (fun hm => h2 (List.mem_cons_of_mem _ hm)) hx hy heq2
      exact ⟨by rw [hc, this.1], this.2⟩

/-! ### Claim C6 -/

/-- Claim C6: `build_prompt` is a pure deterministic function of its two
arguments, and it is injective on newline-free inputs (sanitized texts are
whitespace-collapsed, hence newline-free): equal prompts force equal job
texts and equal resume texts. -/
theorem build_prompt_injective :
    ∀ job1 res1 job2 res2 : Str, '\n' ∉ job1 → '\n' ∉ job2 →
      build_prompt job1 res1 = build_prompt job2 res2 →
      job1 = job2 ∧ res1 = res2 := by
  intro j1 r1 j2 r2 h1 h2 heq
  unfold build_prompt at heq
  simp only [List.append_assoc] at heq
  have heq2 := List.append_cancel_left heq
  obtain ⟨hj, hrest⟩ := nlFree_append_cancel j1 j2
    (PROMPT_MID ++ (r1 ++ PROMPT_TAIL)) (PROMPT_MID ++ (r2 ++ PROMPT_TAIL))
    h1 h2 rfl rfl heq2
  have hrt := List.append_cancel_left hrest
  exact ⟨hj, List.append_cancel_right hrt⟩

/-- Witness for `build_prompt_injective` at concrete newline-free inputs. -/
theorem build_prompt_injective_witness :
    lc "python dev" = lc "python dev" ∧ lc "resume text" = lc "resume text" :=
  build_prompt_injective (lc "python dev") (lc "resume text")
    (lc "python dev") (lc "resume text") (by decide) (by decide) rfl

/-! ### Claim C5 -/

/-- Claim C5: cost accounting.  The attached `total_tokens` equals
`prompt_tokens + completion_tokens` and the attached `usd` value equals
`total / 1000 * price` rounded to 6 decimal places; in particular, with 100
prompt tokens, 50 completion tokens and the price 0.0015 per thousand tokens,
the attached record has `total_tokens = 150` and `usd = 0.000225`. -/
theorem attachCost_spec :
    (∀ (r : AnalysisResult) (pt ct : ℕ) (price : ℚ),
      ∃ d, (attachCost r pt ct price).cost_estimate = some d ∧
        jlookup d (lc "total_tokens") = some (.num ⟨(pt : ℤ) + (ct : ℤ), 0⟩) ∧
        JNum.toRat ⟨(pt : ℤ) + (ct : ℤ), 0⟩ = (pt : ℚ) + (ct : ℚ) ∧
        ∃ u : JNum, jlookup d (lc "usd") = some (.num u) ∧
          u.toRat = round6 ((pt + ct : ℚ) / 1000 * price)) ∧
    (∃ d, (attachCost emptyAnalysisResult 100 50 COST_PER_1K_TOKENS).cost_estimate = some d ∧
      ∃ tn un : JNum,
        jlookup d (lc "total_tokens") = some (.num tn) ∧ tn.toRat = 150 ∧
        jlookup d (lc "usd") = some (.num un) ∧ un.toRat = 225 / 1000000) := by
  constructor
  · intro r pt ct price
    refine ⟨_, rfl, rfl, ?_,
      ⟨roundHalfEven ((pt + ct : ℚ) / 1000 * price * 10 ^ 6), 6⟩, rfl, rfl⟩
    unfold JNum.toRat
    push_cast
    simp
  · have hrhe : roundHalfEven ((((100 : ℕ) : ℚ) + ((50 : ℕ) : ℚ)) / 1000
        * COST_PER_1K_TOKENS * 10 ^ 6) = 225 := by
      have harg : (((100 : ℕ) : ℚ) + ((50 : ℕ) : ℚ)) / 1000
          * COST_PER_1K_TOKENS * 10 ^ 6 = 225 := by
        norm_num [COST_PER_1K_TOKENS]
      rw [harg]
      unfold roundHalfEven
      norm_num
    refine ⟨_, rfl, ⟨150, 0⟩,
      ⟨roundHalfEven ((((100 : ℕ) : ℚ) + ((50 : ℕ) : ℚ)) / 1000
        * COST_PER_1K_TOKENS * 10 ^ 6), 6⟩, ?_, ?_, ?_, ?_⟩
    · rfl
    · norm_num [JNum.toRat]
    · rfl
    · unfold JNum.toRat
      rw [hrhe]
      norm_num

/-! ### Claim C9 -/

/-- Claim C9: every `AnalysisResult` that `analyze_resume` returns carries
a present `cost_estimate` dictionary with `prompt_tokens`,
`completion_tokens` and `total_tokens` as non-negative integers (natural
numbers in the model) and a non-negative `usd` value. -/
theorem analyze_resume_cost_present :
    ∀ (tok : Str → ℕ) (job_desc resume responseContent : Str) (res : AnalysisResult),
      analyze_resume tok job_desc resume responseContent = .ok res →
      ∃ d, res.cost_estimate = some d ∧
        ∃ pt ct : ℕ,
          jlookup d (lc "prompt_tokens") = some (.num ⟨pt, 0⟩) ∧
          jlookup d (lc "completion_tokens") = some (.num ⟨ct, 0⟩) ∧
          jlookup d (lc "total_tokens") = some (.num ⟨(pt : ℤ) + (ct : ℤ), 0⟩) ∧
          ∃ u : JNum, jlookup d (lc "usd") = some (.num u) ∧ 0 ≤ u.toRat := by
  intro tok j r resp res h
  rw [analyze_resume_eq] at h
  cases hv : validateOutput (extract_json_from_llm_output resp) with
  | error e => rw [hv] at h; exact absurd h (by simp)
  | ok r0 =>
    rw [hv] at h
    injection h with h
    subst h
    refine ⟨_, rfl, tok (build_prompt j r), tok resp, rfl, rfl, rfl, _, rfl, ?_⟩
    unfold JNum.toRat
    apply div_nonneg _ (by positivity)
    have hc : (0 : ℚ) ≤ COST_PER_1K_TOKENS := by norm_num [COST_PER_1K_TOKENS]
    have hbase : (0 : ℚ) ≤
        (tok (build_prompt j r) + tok resp : ℚ) / 1000 * COST_PER_1K_TOKENS * 10 ^ 6 := by
      apply mul_nonneg (mul_nonneg (div_nonneg (by positivity) (by norm_num)) hc) (by norm_num)
    exact_mod_cast roundHalfEven_nonneg _ hbase

/-- Witness for `analyze_resume_cost_present` at a concrete run. -/
theorem analyze_resume_cost_present_witness :
    ∃ res, analyze_resume lenTok (lc "job") (lc "resume") sampleResponse = .ok res ∧
      ∃ d, res.cost_estimate = some d ∧
        ∃ pt ct : ℕ,
          jlookup d (lc "prompt_tokens") = some (.num ⟨pt, 0⟩) ∧
          jlookup d (lc "completion_tokens") = some (.num ⟨ct, 0⟩) ∧
          jlookup d (lc "total_tokens") = some (.num ⟨(pt : ℤ) + (ct : ℤ), 0⟩) ∧
          ∃ u : JNum, jlookup d (lc "usd") = some (.num u) ∧ 0 ≤ u.toRat := by
  cases hres : analyze_resume lenTok (lc "job") (lc "resume") sampleResponse with
  | error e =>
    have hok : (analyze_resume lenTok (lc "job") (lc "resume") sampleResponse).isOk = true := rfl
    rw [hres] at hok
    simp [Except.isOk, Except.toBool] at hok
  | ok res =>
    exact ⟨res, rfl, analyze_resume_cost_present lenTok _ _ _ res hres⟩

/-! ### Claim C10 -/

/-- Claim C10 (frame property of cost attachment): in every result
`analyze_resume` returns, the six analysis fields are exactly those of the
result of validating the cleaned LLM output; attaching the cost estimate
changes only `cost_estimate`. -/
theorem analyze_resume_frame :
    ∀ (tok : Str → ℕ) (job_desc resume responseContent : Str) (res : AnalysisResult),
      analyze_resume tok job_desc resume responseContent = .ok res →
      ∃ r0, validateOutput (extract_json_from_llm_output responseContent) = .ok r0 ∧
        res.matching_score = r0.matching_score ∧
        res.matched_skills = r0.matched_skills ∧
        res.missing_skills = r0.missing_skills ∧
        res.matched_experience = r0.matched_experience ∧
        res.missing_experience = r0.missing_experience ∧
        res.summary = r0.summary := by
  intro tok j r resp res h
  rw [analyze_resume_eq] at h
  cases hv : validateOutput (extract_json_from_llm_output resp) with
  | error e => rw [hv] at h; exact absurd h (by simp)
  | ok r0 =>
    rw [hv] at h
    injection h with h
    subst h
    exact ⟨r0, rfl, rfl, rfl, rfl, rfl, rfl, rfl⟩

/-- Witness for `analyze_resume_frame` at a concrete run. -/
theorem analyze_resume_frame_witness :
    ∃ res r0, analyze_resume lenTok (lc "j") (lc "r") sampleResponse = .ok res ∧
      validateOutput (extract_json_from_llm_output sampleResponse) = .ok r0 ∧
      res.summary = r0.summary := by
  cases hres : analyze_resume lenTok (lc "j") (lc "r") sampleResponse with
  | error e =>
    have hok : (analyze_resume lenTok (lc "j") (lc "r") sampleResponse).isOk = true := rfl
    rw [hres] at hok
    simp [Except.isOk, Except.toBool] at hok
  | ok res =>
    obtain ⟨r0, hv, _, _, _, _, _, hsum⟩ := analyze_resume_frame lenTok _ _ _ res hres
    exact ⟨res, r0, rfl, hv, hsum⟩

/-! ### Claim C8 -/

/-- Claim C8 (amended): the token counts `analyze_resume` attaches are
computed with the tokenizer on the built user prompt and on the raw response
content (independent of validation, which runs on the cleaned output); the
request actually sent, however, also carries the fixed system message, whose
tokens are not included in the attached prompt count. -/
theorem analyze_resume_counted_texts :
    ∀ (tok : Str → ℕ) (job_desc resume responseContent : Str) (res : AnalysisResult),
      analyze_resume tok job_desc resume responseContent = .ok res →
      (∃ d, res.cost_estimate = some d ∧
        jlookup d (lc "prompt_tokens")
          = some (.num ⟨tok (build_prompt job_desc resume), 0⟩) ∧
        jlookup d (lc "completion_tokens") = some (.num ⟨tok responseContent, 0⟩)) ∧
      tokensOfMessages tok (messages_sent job_desc resume)
        = tok SYSTEM_MESSAGE + tok (build_prompt job_desc resume) := by
  intro tok j r resp res h
  rw [analyze_resume_eq] at h
  cases hv : validateOutput (extract_json_from_llm_output resp) with
  | error e => rw [hv] at h; exact absurd h (by simp)
  | ok r0 =>
    rw [hv] at h
    injection h with h
    subst h
    exact ⟨⟨_, rfl, rfl, rfl⟩, by simp [tokensOfMessages, messages_sent]⟩

/-- Witness for `analyze_resume_counted_texts` at a concrete run. -/
theorem analyze_resume_counted_texts_witness :
    ∃ res, analyze_resume lenTok (lc "jd") (lc "cv") sampleResponse = .ok res ∧
      tokensOfMessages lenTok (messages_sent (lc "jd") (lc "cv"))
        = lenTok SYSTEM_MESSAGE + lenTok (build_prompt (lc "jd") (lc "cv")) := by
  cases hres : analyze_resume lenTok (lc "jd") (lc "cv") sampleResponse with
  | error e =>
    have hok : (analyze_resume lenTok (lc "jd") (lc "cv") sampleResponse).isOk = true := rfl
    rw [hres] at hok
    simp [Except.isOk, Except.toBool] at hok
  | ok res =>
    exact ⟨res, rfl, (analyze_resume_counted_texts lenTok _ _ _ res hres).2⟩

/-- Counterexample to claim C8 as stated: at a concrete run, the attached
prompt token count is the count of the built user prompt alone, which differs
from the token count of the messages actually sent (system message included).
The tokenizer parameter is instantiated with the character count; like the
tiktoken tokenizer of the source, it gives the non-empty system message a
positive count, which is all the inequality uses. -/
theorem analyze_prompt_tokens_counterexample :
    ∃ res, analyze_resume lenTok (lc "a") (lc "b") sampleResponse = .ok res ∧
      ∃ d, res.cost_estimate = some d ∧
        jlookup d (lc "prompt_tokens")
          = some (.num ⟨lenTok (build_prompt (lc "a") (lc "b")), 0⟩) ∧
        lenTok (build_prompt (lc "a") (lc "b"))
          ≠ tokensOfMessages lenTok (messages_sent (lc "a") (lc "b")) := by
  cases hv : validateOutput (extract_json_from_llm_output sampleResponse) with
  | error e =>
    have hok : (validateOutput (extract_json_from_llm_output sampleResponse)).isOk = true := rfl
    rw [hv] at hok
    simp [Except.isOk, Except.toBool] at hok
  | ok r0 =>
    have hrun : analyze_resume lenTok (lc "a") (lc "b") sampleResponse
        = .ok (attachCost r0 (lenTok (build_prompt (lc "a") (lc "b")))
            (lenTok sampleResponse) COST_PER_1K_TOKENS) := by
      rw [analyze_resume_eq, hv]
    exact ⟨_, hrun, _, rfl, rfl, by decide⟩

/-! ### Claim C2 -/

/-- Claim C2 (amended): the output-validation step rejects — with a
`MalformedOutput`-classified error — any cleaned text that is not parseable
as JSON, any JSON object missing the required `matching_score` field, and any
`matching_score` outside `[0, 100]`; in particular the two concrete inputs of
the claim are rejected.  The further part of the original claim — that a
wrong-typed field is always rejected and no coercion is performed — is false:
pydantic lax validation coerces numeric strings for the float field (see the
counterexample). -/
theorem validateOutput_rejects :
    (∀ s, jparseDoc s = none →
      validateOutput s = .error (.malformedOutput (lc "invalid JSON"))) ∧
    (∀ kvs, jlookup kvs (lc "matching_score") = none →
      validateParsed kvs = .error (.malformedOutput (lc "matching_score: field required"))) ∧
    (∀ kvs n, jlookup kvs (lc "matching_score") = some (.num n) →
      ¬ (0 ≤ n.toRat ∧ n.toRat ≤ 100) →
      validateParsed kvs = .error (.malformedOutput (lc "matching_score: out of range"))) ∧
    (validateOutput (lc "\x7b\"matching_score\": 150, \"matched_skills\": [], \"missing_skills\": [], \"matched_experience\": [], \"missing_experience\": [], \"summary\": \"s\"\x7d")
      = .error (.malformedOutput (lc "matching_score: out of range"))) ∧
    (validateOutput (lc "\x7b\"matched_skills\": [], \"missing_skills\": [], \"matched_experience\": [], \"missing_experience\": [], \"summary\": \"s\"\x7d")
      = .error (.malformedOutput (lc "matching_score: field required"))) := by
  refine ⟨?_, ?_, ?_, rfl, rfl⟩
  · intro s h
    simp [validateOutput, h]
  · intro kvs h
    simp only [validateParsed, h]
  · intro kvs n h hrange
    have hfalse : n.inRange0to100 = false := by
      cases hb : n.inRange0to100
      · rfl
      · exact absurd ((JNum.inRange_iff n).mp hb) hrange
    simp only [validateParsed, h, coerceFloat, hfalse, Bool.not_false, if_true]

/-- Witness for `validateOutput_rejects` at a concrete unparseable input. -/
theorem validateOutput_rejects_witness :
    validateOutput (lc "garbage") = .error (.malformedOutput (lc "invalid JSON")) :=
  validateOutput_rejects.1 (lc "garbage") rfl

/-- Counterexample to claim C2 as stated: a wrong-typed `matching_score` —
the JSON string `"55"` instead of a number — is not rejected; pydantic lax
validation coerces it to the float 55, and validation succeeds. -/
theorem validate_coercion_counterexample :
    ∃ res, validateOutput (lc "\x7b\"matching_score\": \"55\", \"matched_skills\": [], \"missing_skills\": [], \"matched_experience\": [], \"missing_experience\": [], \"summary\": \"ok\"\x7d")
        = .ok res ∧ res.matching_score = 55 := by
  refine ⟨{ matching_score := JNum.toRat ⟨55, 0⟩, matched_skills := [], missing_skills := [],
            matched_experience := [], missing_experience := [], summary := lc "ok",
            cost_estimate := none }, rfl, ?_⟩
  norm_num [JNum.toRat]

/-! ### Adjacency invariants for the fence-stripping proof -/

theorem noAdj_tail {x y a : Char} {s : Str} (h : noAdj x y (a :: s) = true) :
    noAdj x y s = true := by
  match s with
  | [] => rfl
  | b :: t =>
    simp only [noAdj, Bool.and_eq_true] at h
    exact h.2

theorem noAdj_pair {x y a b : Char} {t : Str} (h : noAdj x y (a :: b :: t) = true) :
    ¬ (a = x ∧ b = y) := by
  simp only [noAdj, Bool.and_eq_true, Bool.not_eq_true', Bool.and_eq_false_iff,
    beq_eq_false_iff_ne] at h
  rcases h.1 with h1 | h1 <;> exact fun hc => h1 (by simp [hc.1, hc.2])

theorem noAdj_cons_of_ne {x y a : Char} {c : Str} (ha : a ≠ x)
    (hc : noAdj x y c = true) : noAdj x y (a :: c) = true := by
  match c with
  | [] => rfl
  | b :: t =>
    simp only [noAdj, Bool.and_eq_true]
    exact ⟨by simp [ha], hc⟩

theorem noAdj_of_not_mem_left {x y : Char} : ∀ {s : Str}, x ∉ s → noAdj x y s = true := by
  intro s
  induction s with
  | nil => intro _; rfl
  | cons a t ih =>
    intro h
    have ha : a ≠ x := fun hc => h (hc ▸ List.mem_cons_self a t)
    exact noAdj_cons_of_ne ha (ih (fun hm => h (List.mem_cons_of_mem _ hm)))

theorem noAdj_of_not_mem_right {x y : Char} : ∀ {s : Str}, y ∉ s → noAdj x y s = true := by
  intro s
  induction s with
  | nil => intro _; rfl
  | cons a t ih =>
    intro h
    match t with
    | [] => rfl
    | b :: t2 =>
      simp only [noAdj, Bool.and_eq_true]
      refine ⟨?_, ih (fun hm => h (List.mem_cons_of_mem _ hm))⟩
      have hb : b ≠ y := fun hc => h (by simp [hc])
      simp [hb]

theorem noAdj_append {x y : Char} : ∀ {a b : Str}, noAdj x y a = true →
    noAdj x y b = true → ¬ (a.getLast? = some x ∧ b.head? = some y) →
    noAdj x y (a ++ b) = true := by
  intro a
  induction a with
  | nil => intro b _ hb _; simpa using hb
  | cons a0 t ih =>
    intro b ha hb hbd
    match t with
    | [] =>
      match b with
      | [] => rfl
      | b0 :: b2 =>
        simp only [List.cons_append, List.nil_append, noAdj, Bool.and_eq_true]
        refine ⟨?_, hb⟩
        have : ¬ (a0 = x ∧ b0 = y) := fun hc => hbd (by simp [hc.1, hc.2])
        by_cases hax : a0 = x
        · have : b0 ≠ y := fun hby => this ⟨hax, hby⟩
          simp [this]
        · simp [hax]
    | a1 :: t2 =>
      simp only [List.cons_append, noAdj, Bool.and_eq_true]
      constructor
      · have := noAdj_pair ha
        by_cases hax : a0 = x
        · have : a1 ≠ y := fun hby => this ⟨hax, hby⟩
          simp [this]
        · simp [hax]
      · have hrec := ih (noAdj_tail ha) hb
          (by simpa using hbd)
        simpa using hrec

theorem Ipred_nil : Ipred [] := by
  refine ⟨rfl, rfl, by simp, by simp⟩

theorem Ipred_append : ∀ {a b : Str}, Ipred a → Ipred b → Ipred (a ++ b) := by
  intro a b ha hb
  match b with
  | [] => simpa using ha
  | b0 :: b2 =>
    match a with
    | [] => simpa using hb
    | a0 :: a2 =>
      obtain ⟨ha1, ha2, ha3, ha4⟩ := ha
      obtain ⟨hb1, hb2, hb3, hb4⟩ := hb
      refine ⟨?_, ?_, ?_, ?_⟩
      · exact noAdj_append ha1 hb1 (fun hc => hb3 hc.2)
      · exact noAdj_append ha2 hb2 (fun hc => ha4 hc.1)
      · simpa [List.head?_append] using ha3
      · rw [List.getLast?_append_of_ne_nil _ (by simp)]
        exact hb4

theorem Ipred_singleton {a : Char} (ha : a ≠ '`') : Ipred [a] := by
  refine ⟨rfl, rfl, by simp [ha], by simp [ha]⟩

theorem Ipred_cons {a : Char} {c : Str} (ha : a ≠ '`') (hc : Ipred c) :
    Ipred (a :: c) :=
  Ipred_append (Ipred_singleton ha) hc

theorem Ipred_of_not_bt : ∀ {s : Str}, '`' ∉ s → Ipred s := by
  intro s h
  refine ⟨noAdj_of_not_mem_right h, noAdj_of_not_mem_left h, ?_, ?_⟩
  · intro hc
    exact h (List.mem_of_mem_head? (by simp [hc]))
  · intro hc
    obtain ⟨hne, heq⟩ := List.mem_getLast?_eq_getLast (l := s) (x := '`')
      (by simp [Option.mem_def, hc])
    exact h (heq ▸ List.getLast_mem hne)

theorem Ipred_of_not_nl {s : Str} (h : '\n' ∉ s) (hh : s.head? ≠ some '`')
    (hl : s.getLast? ≠ some '`') : Ipred s :=
  ⟨noAdj_of_not_mem_left h, noAdj_of_not_mem_right h, hh, hl⟩

/-! ### Consumed-text invariants of the JSON parser -/

theorem Ipred_spaces {s : Str} (h : ∀ a ∈ s, pySpace a = true) : Ipred s :=
  Ipred_of_not_bt (fun hm => absurd (h _ hm) (by decide))

theorem Ipred_takeWhile_spaces (s : Str) : Ipred (s.takeWhile pySpace) :=
  Ipred_spaces (fun _ ha => List.mem_takeWhile_imp ha)

theorem isPrefixOf_decomp {t s : Str} (h : t.isPrefixOf s = true) :
    s = t ++ s.drop t.length := by
  obtain ⟨u, hu⟩ := List.isPrefixOf_iff_prefix.mp h
  rw [← hu, List.drop_left]

theorem pStrChars_inv :
    ∀ (n : ℕ) (s t r : Str), s.length ≤ n → pStrChars s = some (t, r) →
      s = t ++ '"' :: r ∧ ∀ a ∈ t, ctrl a = false := by
  intro n
  induction n with
  | zero =>
    intro s t r hlen h
    match s with
    | [] => simp [pStrChars] at h
    | c :: cs => simp at hlen
  | succ n ih =>
    intro s t r hlen h
    match s with
    | [] => simp [pStrChars] at h
    | c :: cs =>
      rw [pStrChars.eq_def] at h
      dsimp only at h
      by_cases hq : c = '"'
      · rw [if_pos hq] at h
        injection h with h
        injection h with h1 h2
        subst h1; subst h2; subst hq
        exact ⟨rfl, by simp⟩
      · rw [if_neg hq] at h
        by_cases hb : c = '\\'
        · rw [if_pos hb] at h
          match cs with
          | [] => simp at h
          | e :: cs2 =>
            dsimp only at h
            by_cases he : ctrl e
            · rw [if_pos he] at h; simp at h
            · rw [if_neg he] at h
              cases hp : pStrChars cs2 with
              | none => rw [hp] at h; simp at h
              | some tr =>
                obtain ⟨t2, r2⟩ := tr
                rw [hp] at h
                dsimp only at h
                injection h with h
                injection h with h1 h2
                subst h2
                simp only [List.length_cons] at hlen
                obtain ⟨hdec, hctrl⟩ := ih cs2 t2 r2 (by omega) hp
                subst h1
                constructor
                · rw [hb]
                  simp [hdec]
                · intro a ha
                  rcases List.mem_cons.mp ha with h1 | h1
                  · subst h1; subst hb; decide
                  · rcases List.mem_cons.mp h1 with h2 | h2
                    · subst h2
                      exact Bool.eq_false_iff.mpr (fun hc => he (by simp [hc]))
                    · exact hctrl a h2
        · rw [if_neg hb] at h
          by_cases hctrlc : ctrl c
          · rw [if_pos hctrlc] at h; simp at h
          · rw [if_neg hctrlc] at h
            cases hp : pStrChars cs with
            | none => rw [hp] at h; simp at h
            | some tr =>
              obtain ⟨t2, r2⟩ := tr
              rw [hp] at h
              dsimp only at h
              injection h with h
              injection h with h1 h2
              subst h2
              simp only [List.length_cons] at hlen
              obtain ⟨hdec, hctrl2⟩ := ih cs t2 r2 (by omega) hp
              subst h1
              constructor
              · simp [hdec]
              · intro a ha
                rcases List.mem_cons.mp ha with h1 | h1
                · subst h1
                  exact Bool.eq_false_iff.mpr (fun hc2 => hctrlc (by simp [hc2]))
                · exact hctrl2 a h1

/-- The full string-literal chunk (both quotes included) satisfies the
invariant: its body has no control characters, hence no newline. -/
theorem Ipred_string_chunk {t : Str} (hctrl : ∀ a ∈ t, ctrl a = false) :
    Ipred ('"' :: t ++ ['"']) := by
  apply Ipred_of_not_nl
  · intro hm
    rcases List.mem_cons.mp hm with h1 | h1
    · exact absurd h1.symm (by decide)
    · rcases List.mem_append.mp h1 with h2 | h2
      · have := hctrl _ h2
        exact absurd this (by decide)
      · rcases List.mem_singleton.mp h2 with h3
        exact absurd h3 (by decide)
  · simp
  · rw [show ('"' :: t ++ ['"']) = ('"' :: t) ++ ['"'] from rfl,
        List.getLast?_append_of_ne_nil _ (by simp)]
    simp

theorem no_bt_takeWhile_digits (s : Str) : '`' ∉ s.takeWhile Char.isDigit := by
  intro hm
  exact absurd (List.mem_takeWhile_imp hm) (by decide)

theorem pFrac_chunk : ∀ (s : Str) (fv fl : ℕ) (r : Str), pFrac s = some (fv, fl, r) →
    ∃ c, s = c ++ r ∧ '`' ∉ c := by
  intro s fv fl r h
  match s with
  | [] =>
    refine ⟨[], ?_, by simp⟩
    simp only [pFrac, Option.some_inj, Prod.mk.injEq] at h
    simp [h.2.2]
  | c0 :: cs =>
    rw [pFrac.eq_def] at h
    dsimp only at h
    by_cases hdot : c0 = '.'
    · rw [if_pos hdot] at h
      by_cases hfs : cs.takeWhile Char.isDigit = []
      · rw [if_pos hfs] at h
        simp at h
      · rw [if_neg hfs] at h
        simp only [Option.some_inj, Prod.mk.injEq] at h
        refine ⟨'.' :: cs.takeWhile Char.isDigit, ?_, ?_⟩
        · rw [← h.2.2, hdot]
          simp [List.takeWhile_append_dropWhile]
        · intro hm
          rcases List.mem_cons.mp hm with h1 | h1
          · exact absurd h1.symm (by decide)
          · exact no_bt_takeWhile_digits cs h1
    · rw [if_neg hdot] at h
      simp only [Option.some_inj, Prod.mk.injEq] at h
      exact ⟨[], by simp [h.2.2], by simp⟩

theorem pExp_chunk : ∀ (s : Str) (en : Bool) (ev : ℕ) (r : Str),
    pExp s = some (en, ev, r) → ∃ c, s = c ++ r ∧ '`' ∉ c := by
  intro s en ev r h
  match s with
  | [] =>
    refine ⟨[], ?_, by simp⟩
    simp only [pExp, Option.some_inj, Prod.mk.injEq] at h
    simp [h.2.2]
  | c0 :: cs =>
    rw [pExp.eq_def] at h
    dsimp only at h
    by_cases hce : c0 = 'e' ∨ c0 = 'E'
    · rw [if_pos hce] at h
      have hc0 : c0 ≠ '`' := by rcases hce with h1 | h1 <;> simp [h1]
      match cs with
      | [] =>
        dsimp only at h
        simp at h
      | c2 :: r2 =>
        dsimp only at h
        by_cases hm : c2 = '-'
        · rw [if_pos hm] at h
          dsimp only at h
          by_cases hes : r2.takeWhile Char.isDigit = []
          · rw [if_pos hes] at h; simp at h
          · rw [if_neg hes] at h
            simp only [Option.some_inj, Prod.mk.injEq] at h
            refine ⟨c0 :: c2 :: r2.takeWhile Char.isDigit, ?_, ?_⟩
            · rw [← h.2.2]
              simp [List.takeWhile_append_dropWhile]
            · intro hmem
              rcases List.mem_cons.mp hmem with h1 | h1
              · exact absurd h1.symm hc0
              · rcases List.mem_cons.mp h1 with h2 | h2
                · rw [hm] at h2; exact absurd h2.symm (by decide)
                · exact no_bt_takeWhile_digits r2 h2
        · rw [if_neg hm] at h
          by_cases hp : c2 = '+'
          · rw [if_pos hp] at h
            dsimp only at h
            by_cases hes : r2.takeWhile Char.isDigit = []
            · rw [if_pos hes] at h; simp at h
            · rw [if_neg hes] at h
              simp only [Option.some_inj, Prod.mk.injEq] at h
              refine ⟨c0 :: c2 :: r2.takeWhile Char.isDigit, ?_, ?_⟩
              · rw [← h.2.2]
                simp [List.takeWhile_append_dropWhile]
              · intro hmem
                rcases List.mem_cons.mp hmem with h1 | h1
                · exact absurd h1.symm hc0
                · rcases List.mem_cons.mp h1 with h2 | h2
                  · rw [hp] at h2; exact absurd h2.symm (by decide)
                  · exact no_bt_takeWhile_digits r2 h2
          · rw [if_neg hp] at h
            dsimp only at h
            by_cases hes : (c2 :: r2).takeWhile Char.isDigit = []
            · rw [if_pos hes] at h; simp at h
            · rw [if_neg hes] at h
              simp only [Option.some_inj, Prod.mk.injEq] at h
              refine ⟨c0 :: (c2 :: r2).takeWhile Char.isDigit, ?_, ?_⟩
              · rw [← h.2.2]
                simp [List.takeWhile_append_dropWhile]
              · intro hmem
                rcases List.mem_cons.mp hmem with h1 | h1
                · exact absurd h1.symm hc0
                · exact no_bt_takeWhile_digits (c2 :: r2) h1
    · rw [if_neg hce] at h
      simp only [Option.some_inj, Prod.mk.injEq] at h
      exact ⟨[], by simp [h.2.2], by simp⟩

theorem pNum_chunk : ∀ (s : Str) (nn : JNum) (r : Str), pNum s = some (nn, r) →
    ∃ c, s = c ++ r ∧ '`' ∉ c := by
  intro s nn r h
  match s with
  | [] => simp [pNum] at h
  | c0 :: cs =>
    rw [pNum.eq_def] at h
    dsimp only at h
    by_cases hm : c0 = '-'
    · rw [if_pos hm] at h
      dsimp only at h
      by_cases hds : cs.takeWhile Char.isDigit = []
      · rw [if_pos hds] at h; simp at h
      · rw [if_neg hds] at h
        cases hf : pFrac (cs.dropWhile Char.isDigit) with
        | none => rw [hf] at h; simp at h
        | some fvt =>
          obtain ⟨fv, fl, r2⟩ := fvt
          rw [hf] at h
          dsimp only at h
          cases he : pExp r2 with
          | none => rw [he] at h; simp at h
          | some evt =>
            obtain ⟨en, ev, r3⟩ := evt
            rw [he] at h
            dsimp only at h
            injection h with h
            injection h with h1 h2
            subst h2
            obtain ⟨cF, hcF, hbF⟩ := pFrac_chunk _ _ _ _ hf
            obtain ⟨cE, hcE, hbE⟩ := pExp_chunk _ _ _ _ he
            refine ⟨c0 :: cs.takeWhile Char.isDigit ++ cF ++ cE, ?_, ?_⟩
            · have : cs = cs.takeWhile Char.isDigit ++ (cs.dropWhile Char.isDigit) :=
                (List.takeWhile_append_dropWhile Char.isDigit _).symm
              conv_lhs => rw [this, hcF, hcE]
              simp [List.append_assoc]
            · intro hmem
              simp only [List.cons_append, List.mem_cons, List.mem_append] at hmem
              rcases hmem with h1 | h1
              · rw [hm] at h1; exact absurd h1.symm (by decide)
              · rcases h1 with h1 | h1
                · rcases h1 with h1 | h1
                  · exact no_bt_takeWhile_digits cs h1
                  · exact hbF h1
                · exact hbE h1
    · rw [if_neg hm] at h
      dsimp only at h
      by_cases hds : (c0 :: cs).takeWhile Char.isDigit = []
      · rw [if_pos hds] at h; simp at h
      · rw [if_neg hds] at h
        cases hf : pFrac ((c0 :: cs).dropWhile Char.isDigit) with
        | none => rw [hf] at h; simp at h
        | some fvt =>
          obtain ⟨fv, fl, r2⟩ := fvt
          rw [hf] at h
          dsimp only at h
          cases he : pExp r2 with
          | none => rw [he] at h; simp at h
          | some evt =>
            obtain ⟨en, ev, r3⟩ := evt
            rw [he] at h
            dsimp only at h
            injection h with h
            injection h with h1 h2
            subst h2
            obtain ⟨cF, hcF, hbF⟩ := pFrac_chunk _ _ _ _ hf
            obtain ⟨cE, hcE, hbE⟩ := pExp_chunk _ _ _ _ he
            refine ⟨(c0 :: cs).takeWhile Char.isDigit ++ cF ++ cE, ?_, ?_⟩
            · have : (c0 :: cs) = (c0 :: cs).takeWhile Char.isDigit
                  ++ ((c0 :: cs).dropWhile Char.isDigit) :=
                (List.takeWhile_append_dropWhile Char.isDigit _).symm
              conv_lhs => rw [this, hcF, hcE]
              simp [List.append_assoc]
            · intro hmem
              simp only [List.mem_append] at hmem
              rcases hmem with h1 | h1
              · rcases h1 with h1 | h1
                · exact no_bt_takeWhile_digits (c0 :: cs) h1
                · exact hbF h1
              · exact hbE h1

theorem tw_dw (s : Str) : s = s.takeWhile pySpace ++ s.dropWhile pySpace :=
  (List.takeWhile_append_dropWhile pySpace s).symm

theorem Ipred_delim_chunk {a b : Char} (ha : a ≠ '`') (hb : b ≠ '`') (w : Str) :
    Ipred (a :: w.takeWhile pySpace ++ [b]) :=
  Ipred_cons ha (Ipred_append (Ipred_takeWhile_spaces w) (Ipred_singleton hb))

/-- Invariant of the text each parser function consumes: on success the input
splits as consumed text followed by the remainder, and the consumed text is
invisible to the fence-stripping regex. -/
theorem parser_inv : ∀ f : ℕ,
    (∀ s v r, pVal f s = some (v, r) → ∃ c, s = c ++ r ∧ Ipred c) ∧
    (∀ s kvs r, pPairs f s = some (kvs, r) → ∃ c, s = c ++ r ∧ Ipred c) ∧
    (∀ s vs r, pElems f s = some (vs, r) → ∃ c, s = c ++ r ∧ Ipred c) := by
  intro f
  induction f with
  | zero =>
    refine ⟨?_, ?_, ?_⟩ <;> intro s a r h <;> simp [pVal, pPairs, pElems] at h
  | succ f ih =>
    obtain ⟨ihV, ihP, ihE⟩ := ih
    refine ⟨?_, ?_, ?_⟩
    · -- pVal
      intro s v r h
      rw [pVal.eq_def] at h
      dsimp only at h
      split at h
      · -- object
        rename_i r1 heq1
        split at h
        · -- empty object
          rename_i r2 heq2
          injection h with h
          injection h with h1 h2
          subst h2
          refine ⟨s.takeWhile pySpace ++ ('{' :: r1.takeWhile pySpace ++ ['}']), ?_, ?_⟩
          · conv_lhs => rw [tw_dw s, heq1, tw_dw r1, heq2]
            simp [List.append_assoc]
          · exact Ipred_append (Ipred_takeWhile_spaces s)
              (Ipred_delim_chunk (by decide) (by decide) r1)
        · -- non-empty object
          cases hpp : pPairs f r1 with
          | none => rw [hpp] at h; simp at h
          | some kr =>
            obtain ⟨kvs, r2⟩ := kr
            rw [hpp] at h
            dsimp only at h
            injection h with h
            injection h with h1 h2
            subst h2
            obtain ⟨cP, hcP, hiP⟩ := ihP r1 kvs r2 hpp
            refine ⟨s.takeWhile pySpace ++ '{' :: cP, ?_, ?_⟩
            · conv_lhs => rw [tw_dw s, heq1, hcP]
              simp [List.append_assoc]
            · exact Ipred_append (Ipred_takeWhile_spaces s)
                (Ipred_cons (by decide) hiP)
      · -- array
        rename_i r1 heq1
        split at h
        · -- empty array
          rename_i r2 heq2
          injection h with h
          injection h with h1 h2
          subst h2
          refine ⟨s.takeWhile pySpace ++ ('[' :: r1.takeWhile pySpace ++ [']']), ?_, ?_⟩
          · conv_lhs => rw [tw_dw s, heq1, tw_dw r1, heq2]
            simp [List.append_assoc]
          · exact Ipred_append (Ipred_takeWhile_spaces s)
              (Ipred_delim_chunk (by decide) (by decide) r1)
        · cases hpp : pElems f r1 with
          | none => rw [hpp] at h; simp at h
          | some vr =>
            obtain ⟨vs, r2⟩ := vr
            rw [hpp] at h
            dsimp only at h
            injection h with h
            injection h with h1 h2
            subst h2
            obtain ⟨cE, hcE, hiE⟩ := ihE r1 vs r2 hpp
            refine ⟨s.takeWhile pySpace ++ '[' :: cE, ?_, ?_⟩
            · conv_lhs => rw [tw_dw s, heq1, hcE]
              simp [List.append_assoc]
            · exact Ipred_append (Ipred_takeWhile_spaces s)
                (Ipred_cons (by decide) hiE)
      · -- string
        rename_i r1 heq1
        cases hps : pStrChars r1 with
        | none => rw [hps] at h; simp at h
        | some tr =>
          obtain ⟨t, r2⟩ := tr
          rw [hps] at h
          dsimp only at h
          injection h with h
          injection h with h1 h2
          subst h2
          obtain ⟨hdec, hctrl⟩ := pStrChars_inv r1.length r1 t r2 le_rfl hps
          refine ⟨s.takeWhile pySpace ++ ('"' :: t ++ ['"']), ?_, ?_⟩
          · conv_lhs => rw [tw_dw s, heq1, hdec]
            simp [List.append_assoc]
          · exact Ipred_append (Ipred_takeWhile_spaces s) (Ipred_string_chunk hctrl)
      · -- true
        rename_i r1 heq1
        split at h
        · rename_i hpre
          injection h with h
          injection h with h1 h2
          subst h2
          refine ⟨s.takeWhile pySpace ++ lc "true", ?_, ?_⟩
          · conv_lhs => rw [tw_dw s, heq1]
            rw [heq1] at hpre ⊢
            conv_lhs => rw [isPrefixOf_decomp hpre]
            simp only [List.append_assoc, List.cons_append, List.nil_append]
            rfl
          · exact Ipred_append (Ipred_takeWhile_spaces s) (Ipred_of_not_bt (by decide))
        · simp at h
      · -- false
        rename_i r1 heq1
        split at h
        · rename_i hpre
          injection h with h
          injection h with h1 h2
          subst h2
          refine ⟨s.takeWhile pySpace ++ lc "false", ?_, ?_⟩
          · conv_lhs => rw [tw_dw s, heq1]
            rw [heq1] at hpre ⊢
            conv_lhs => rw [isPrefixOf_decomp hpre]
            simp only [List.append_assoc, List.cons_append, List.nil_append]
            rfl
          · exact Ipred_append (Ipred_takeWhile_spaces s) (Ipred_of_not_bt (by decide))
        · simp at h
      · -- null
        rename_i r1 heq1
        split at h
        · rename_i hpre
          injection h with h
          injection h with h1 h2
          subst h2
          refine ⟨s.takeWhile pySpace ++ lc "null", ?_, ?_⟩
          · conv_lhs => rw [tw_dw s, heq1]
            rw [heq1] at hpre ⊢
            conv_lhs => rw [isPrefixOf_decomp hpre]
            simp only [List.append_assoc, List.cons_append, List.nil_append]
            rfl
          · exact Ipred_append (Ipred_takeWhile_spaces s) (Ipred_of_not_bt (by decide))
        · simp at h
      · -- number
        cases hpn : pNum (s.dropWhile pySpace) with
        | none => rw [hpn] at h; simp at h
        | some qr =>
          obtain ⟨q, r2⟩ := qr
          rw [hpn] at h
          dsimp only at h
          injection h with h
          injection h with h1 h2
          subst h2
          obtain ⟨cN, hcN, hbN⟩ := pNum_chunk _ q r2 hpn
          refine ⟨s.takeWhile pySpace ++ cN, ?_, ?_⟩
          · conv_lhs => rw [tw_dw s, hcN]
            simp [List.append_assoc]
          · exact Ipred_append (Ipred_takeWhile_spaces s) (Ipred_of_not_bt hbN)
    · -- pPairs
      intro s kvs r h
      rw [pPairs.eq_def] at h
      dsimp only at h
      split at h
      · rename_i r1 heq1
        cases hps : pStrChars r1 with
        | none => rw [hps] at h; simp at h
        | some kr =>
          obtain ⟨k, r2⟩ := kr
          rw [hps] at h
          dsimp only at h
          obtain ⟨hdecK, hctrlK⟩ := pStrChars_inv r1.length r1 k r2 le_rfl hps
          split at h
          · rename_i r3 heq3
            cases hpv : pVal f r3 with
            | none => rw [hpv] at h; simp at h
            | some vr =>
              obtain ⟨v, r4⟩ := vr
              rw [hpv] at h
              dsimp only at h
              obtain ⟨cV, hcV, hiV⟩ := ihV r3 v r4 hpv
              split at h
              · -- comma: recurse
                rename_i r6 heq6
                cases hpr : pPairs f r6 with
                | none => rw [hpr] at h; simp at h
                | some kr2 =>
                  obtain ⟨kvs2, r7⟩ := kr2
                  rw [hpr] at h
                  dsimp only at h
                  injection h with h
                  injection h with h1 h2
                  subst h2
                  obtain ⟨cR, hcR, hiR⟩ := ihP r6 kvs2 r7 hpr
                  refine ⟨s.takeWhile pySpace ++ ('"' :: k ++ ['"'])
                      ++ (r2.takeWhile pySpace ++ [':']) ++ cV
                      ++ (r4.takeWhile pySpace ++ [',']) ++ cR, ?_, ?_⟩
                  · conv_lhs => rw [tw_dw s, heq1, hdecK, tw_dw r2, heq3, hcV,
                      tw_dw r4, heq6, hcR]
                    simp [List.append_assoc]
                  · refine Ipred_append (Ipred_append (Ipred_append (Ipred_append
                      (Ipred_append (Ipred_takeWhile_spaces s)
                        (Ipred_string_chunk hctrlK))
                      (Ipred_append (Ipred_takeWhile_spaces r2)
                        (Ipred_singleton (by decide)))) hiV)
                      (Ipred_append (Ipred_takeWhile_spaces r4)
                        (Ipred_singleton (by decide)))) hiR
              · -- closing brace
                rename_i r6 heq6
                injection h with h
                injection h with h1 h2
                subst h2
                refine ⟨s.takeWhile pySpace ++ ('"' :: k ++ ['"'])
                    ++ (r2.takeWhile pySpace ++ [':']) ++ cV
                    ++ (r4.takeWhile pySpace ++ ['}']), ?_, ?_⟩
                · conv_lhs => rw [tw_dw s, heq1, hdecK, tw_dw r2, heq3, hcV,
                    tw_dw r4, heq6]
                  simp [List.append_assoc]
                · refine Ipred_append (Ipred_append (Ipred_append
                    (Ipred_append (Ipred_takeWhile_spaces s)
                      (Ipred_string_chunk hctrlK))
                    (Ipred_append (Ipred_takeWhile_spaces r2)
                      (Ipred_singleton (by decide)))) hiV)
                    (Ipred_append (Ipred_takeWhile_spaces r4)
                      (Ipred_singleton (by decide)))
              · simp at h
          · simp at h
      · simp at h
    · -- pElems
      intro s vs r h
      rw [pElems.eq_def] at h
      dsimp only at h
      cases hpv : pVal f s with
      | none => rw [hpv] at h; simp at h
      | some vr =>
        obtain ⟨v, r0⟩ := vr
        rw [hpv] at h
        dsimp only at h
        obtain ⟨cV, hcV, hiV⟩ := ihV s v r0 hpv
        split at h
        · -- comma: recurse
          rename_i r2 heq2
          cases hpe : pElems f r2 with
          | none => rw [hpe] at h; simp at h
          | some vr2 =>
            obtain ⟨vs2, r3⟩ := vr2
            rw [hpe] at h
            dsimp only at h
            injection h with h
            injection h with h1 h2
            subst h2
            obtain ⟨cE, hcE, hiE⟩ := ihE r2 vs2 r3 hpe
            refine ⟨cV ++ (r0.takeWhile pySpace ++ [',']) ++ cE, ?_, ?_⟩
            · conv_lhs => rw [hcV, tw_dw r0, heq2, hcE]
              simp [List.append_assoc]
            · exact Ipred_append (Ipred_append hiV
                (Ipred_append (Ipred_takeWhile_spaces r0)
                  (Ipred_singleton (by decide)))) hiE
        · -- closing bracket
          rename_i r2 heq2
          injection h with h
          injection h with h1 h2
          subst h2
          refine ⟨cV ++ (r0.takeWhile pySpace ++ [']']), ?_, ?_⟩
          · conv_lhs => rw [hcV, tw_dw r0, heq2]
            simp [List.append_assoc]
          · exact Ipred_append hiV
              (Ipred_append (Ipred_takeWhile_spaces r0)
                (Ipred_singleton (by decide)))
        · simp at h

/-! ### Structure of stripped strings -/

theorem dropWhile_all_append {p : Char → Bool} :
    ∀ (xs ys : Str), (∀ a ∈ xs, p a = true) → (xs ++ ys).dropWhile p = ys.dropWhile p := by
  intro xs ys
  induction xs with
  | nil => intro _; rfl
  | cons a t ih =>
    intro h
    rw [List.cons_append, List.dropWhile_cons, if_pos (h a (by simp))]
    exact ih (fun b hb => h b (List.mem_cons_of_mem _ hb))

theorem pstrip_decomp (s : Str) :
    s.dropWhile pySpace
      = pstrip s ++ ((s.dropWhile pySpace).reverse.takeWhile pySpace).reverse := by
  conv_lhs => rw [← List.reverse_reverse (s.dropWhile pySpace),
    ← List.takeWhile_append_dropWhile (p := pySpace) (l := (s.dropWhile pySpace).reverse)]
  rw [List.reverse_append]
  rfl

theorem strip_split (s : Str) :
    s = s.takeWhile pySpace ++ pstrip s
      ++ ((s.dropWhile pySpace).reverse.takeWhile pySpace).reverse := by
  conv_lhs => rw [tw_dw s, pstrip_decomp s]
  simp [List.append_assoc]

theorem pstrip_last_not_space {s : Str} {c : Char} (h : (pstrip s).getLast? = some c) :
    pySpace c = false := by
  unfold pstrip at h
  rw [List.getLast?_reverse] at h
  have := List.head?_dropWhile_not pySpace (s.dropWhile pySpace).reverse
  rw [h] at this
  simpa using this

theorem pstrip_head_not_space {s : Str} {c : Char} (h : (pstrip s).head? = some c) :
    pySpace c = false := by
  have hne : pstrip s ≠ [] := by
    intro hnil; rw [hnil] at h; simp at h
  have hD : (s.dropWhile pySpace).head? = some c := by
    rw [pstrip_decomp s, List.head?_append_of_ne_nil _ hne]
    exact h
  have := List.head?_dropWhile_not pySpace s
  rw [hD] at this
  simpa using this

theorem pstrip_append_ws : ∀ (s w : Str), s ≠ [] →
    (∀ c, s.head? = some c → pySpace c = false) →
    (∀ c, s.getLast? = some c → pySpace c = false) →
    (∀ a ∈ w, pySpace a = true) → pstrip (s ++ w) = s := by
  intro s w hs hh hl hw
  match s, hs with
  | c :: s', _ =>
    unfold pstrip
    rw [List.cons_append, List.dropWhile_cons, if_neg (by simp [hh c rfl])]
    rw [show (c :: (s' ++ w)).reverse = w.reverse ++ (c :: s').reverse by simp]
    rw [dropWhile_all_append _ _ (fun a ha => hw a (by simpa using ha))]
    have hrev : ((c :: s').reverse).dropWhile pySpace = (c :: s').reverse := by
      match hr : (c :: s').reverse with
      | [] => simp at hr
      | d :: t =>
        rw [List.dropWhile_cons, if_neg ?_]
        have hd : (c :: s').getLast? = some d := by
          rw [← List.head?_reverse, hr]; rfl
        simp [hl d hd]
    rw [hrev, List.reverse_reverse]

/-! ### Behaviour of the fence-stripping regex on parsed text -/

theorem bt_prefix_head {c : Char} {w : Str}
    (hp : (lc "```").isPrefixOf (c :: w) = true) : c = '`' := by
  obtain ⟨u, hu⟩ := List.isPrefixOf_iff_prefix.mp hp
  have h2 : ('`' : Char) :: ('`' :: '`' :: u) = c :: w := hu
  injection h2 with h2a _
  exact h2a.symm

theorem bt_prefix_decomp {c : Char} {w : Str}
    (hp : (lc "```").isPrefixOf (c :: w) = true) :
    ∃ u, c :: w = '`' :: '`' :: '`' :: u := by
  obtain ⟨u, hu⟩ := List.isPrefixOf_iff_prefix.mp hp
  exact ⟨u, hu.symm⟩

theorem branch2_false_gen {c : Char} {cs : Str} (w : Str)
    (h2 : noAdj '`' '\n' (c :: cs) = true) (h3 : (c :: cs).getLast? ≠ some '`') :
    ((lc "```").isPrefixOf (c :: (cs ++ w)) && (((c :: (cs ++ w)).drop 3).isEmpty
      || (((c :: (cs ++ w)).drop 3).head? == some '\n'))) = false := by
  cases hp : (lc "```").isPrefixOf (c :: (cs ++ w)) with
  | false => rw [Bool.false_and]
  | true =>
    rw [Bool.true_and]
    have hc := bt_prefix_head hp
    subst hc
    match cs with
    | [] => exact absurd rfl h3
    | [x] =>
      obtain ⟨u, hu⟩ := bt_prefix_decomp hp
      simp only [List.cons_append, List.singleton_append, List.cons.injEq] at hu
      exact absurd (by rw [hu.2.1]; rfl) h3
    | x :: y :: t =>
      obtain ⟨u, hu⟩ := bt_prefix_decomp hp
      simp only [List.cons_append, List.cons.injEq] at hu
      obtain ⟨-, hx, hy, hu3⟩ := hu
      subst hx
      subst hy
      match t with
      | [] => exact absurd rfl h3
      | z :: t2 =>
        have hz : z ≠ '\n' := by
          have hpair := noAdj_pair (noAdj_tail (noAdj_tail h2))
          intro hzz
          exact hpair ⟨rfl, hzz⟩
        show ((List.drop 3 ('`' :: '`' :: '`' :: (z :: t2 ++ w))).isEmpty
          || ((List.drop 3 ('`' :: '`' :: '`' :: (z :: t2 ++ w))).head? == some '\n')) = false
        simp [hz]

theorem fenceSubF_cons (f : ℕ) (c : Char) (cs : Str) (ls : Bool)
    (hc1 : (ls && (lc "```").isPrefixOf (c :: cs)) = false)
    (hc2 : ((lc "```").isPrefixOf (c :: cs) && (((c :: cs).drop 3).isEmpty
      || (((c :: cs).drop 3).head? == some '\n'))) = false) :
    fenceSubF (f + 1) (c :: cs) ls = c :: fenceSubF f cs (c == '\n') := by
  rw [fenceSubF.eq_def]
  dsimp only
  rw [hc1, hc2]
  simp

theorem fenceSubF_open (f : ℕ) (c : Char) (cs : Str)
    (hp : (lc "```").isPrefixOf (c :: cs) = true) :
    fenceSubF (f + 1) (c :: cs) true
      = fenceSubF f
          ((if ciJson ((c :: cs).drop 3) then ((c :: cs).drop 3).drop 4
            else (c :: cs).drop 3).dropWhile pySpace)
          (((if ciJson ((c :: cs).drop 3) then ((c :: cs).drop 3).drop 4
            else (c :: cs).drop 3).takeWhile pySpace).getLast? == some '\n') := by
  rw [fenceSubF.eq_def]
  dsimp only
  rw [hp]
  simp

theorem fenceSubF_id :
    ∀ (f : ℕ) (s : Str) (ls : Bool), s.length < f →
      noAdj '\n' '`' s = true → noAdj '`' '\n' s = true →
      s.getLast? ≠ some '`' → (ls = true → s.head? ≠ some '`') →
      fenceSubF f s ls = s := by
  intro f
  induction f with
  | zero => intro s ls h; omega
  | succ f ih =>
    intro s ls hlen h1 h2 h3 h4
    match s with
    | [] => rfl
    | c :: cs =>
      have hc2 : ((lc "```").isPrefixOf (c :: cs) && (((c :: cs).drop 3).isEmpty
          || (((c :: cs).drop 3).head? == some '\n'))) = false := by
        have := @branch2_false_gen c cs [] h2 h3
        simpa using this
      have hc1 : (ls && (lc "```").isPrefixOf (c :: cs)) = false := by
        cases hls : ls with
        | false => rw [Bool.false_and]
        | true =>
          cases hp : (lc "```").isPrefixOf (c :: cs) with
          | false => rw [Bool.and_false]
          | true =>
            exfalso
            exact h4 hls (by rw [List.head?_cons, bt_prefix_head hp])
      have hlast : cs.getLast? ≠ some '`' := by
        match cs with
        | [] => simp
        | x :: t =>
          rw [List.getLast?_cons_cons] at h3
          exact h3
      have hhead : (c == '\n') = true → cs.head? ≠ some '`' := by
        intro hnl
        have hcn : c = '\n' := by simpa using hnl
        match cs with
        | [] => simp
        | x :: t =>
          have hpair := noAdj_pair h1
          intro hx
          simp only [List.head?_cons, Option.some_inj] at hx
          exact hpair ⟨hcn, hx⟩
      rw [fenceSubF_cons f c cs ls hc1 hc2]
      rw [ih cs (c == '\n') (by simp only [List.length_cons] at hlen; omega)
        (noAdj_tail h1) (noAdj_tail h2) hlast hhead]

theorem fenceSubF_tail :
    ∀ (s : Str) (f : ℕ) (ls : Bool), s.length + 4 < f →
      noAdj '\n' '`' s = true → noAdj '`' '\n' s = true →
      s.getLast? ≠ some '`' → (ls = true → s.head? ≠ some '`') →
      fenceSubF f (s ++ lc "\n```") ls = s ++ ['\n'] := by
  intro s
  induction s with
  | nil =>
    intro f ls hlen _ _ _ _
    obtain ⟨f2, rfl⟩ : ∃ f2, f = f2 + 2 := ⟨f - 2, by omega⟩
    show fenceSubF (f2 + 1 + 1) ('\n' :: lc "```") ls = ['\n']
    have e1 : (lc "```").isPrefixOf ('\n' :: lc "```") = false := rfl
    rw [fenceSubF_cons (f2 + 1) '\n' (lc "```") ls
      (by rw [e1, Bool.and_false]) (by rw [e1, Bool.false_and])]
    rw [show ('\n' == '\n') = true from rfl]
    rw [show (lc "```") = '`' :: '`' :: '`' :: [] from rfl]
    rw [fenceSubF_open f2 '`' ('`' :: '`' :: []) (by rfl)]
    show '\n' :: fenceSubF f2 [] false = ['\n']
    cases f2 <;> rfl
  | cons c cs ih =>
    intro f ls hlen h1 h2 h3 h4
    obtain ⟨f1, rfl⟩ : ∃ f1, f = f1 + 1 := ⟨f - 1, by omega⟩
    have hc2 := branch2_false_gen (lc "\n```") h2 h3
    have hc1 : (ls && (lc "```").isPrefixOf (c :: (cs ++ lc "\n```"))) = false := by
      cases hls : ls with
      | false => rw [Bool.false_and]
      | true =>
        cases hp : (lc "```").isPrefixOf (c :: (cs ++ lc "\n```")) with
        | false => rw [Bool.and_false]
        | true =>
          exfalso
          exact h4 hls (by rw [List.head?_cons, bt_prefix_head hp])
    have hlast : cs.getLast? ≠ some '`' := by
      match cs with
      | [] => simp
      | x :: t =>
        rw [List.getLast?_cons_cons] at h3
        exact h3
    have hhead : (c == '\n') = true → cs.head? ≠ some '`' := by
      intro hnl
      have hcn : c = '\n' := by simpa using hnl
      match cs with
      | [] => simp
      | x :: t =>
        have hpair := noAdj_pair h1
        intro hx
        simp only [List.head?_cons, Option.some_inj] at hx
        exact hpair ⟨hcn, hx⟩
    rw [show (c :: cs) ++ lc "\n```" = c :: (cs ++ lc "\n```") from rfl]
    rw [fenceSubF_cons f1 c _ ls hc1 hc2]
    rw [ih f1 (c == '\n') (by simp only [List.length_cons] at hlen; omega)
      (noAdj_tail h1) (noAdj_tail h2) hlast hhead]
    rfl

/-! ### Claim C7 -/

/-- Claim C7: for every text `j` that validates successfully as a bare JSON
object, validating the fenced input `"```json\n" ++ j ++ "\n```"` also
succeeds and produces the identical result.  The fence-stripping regex
removes the added opening and closing fences and leaves the JSON body
untouched: text consumed by a successful JSON parse never has a backtick at
a line boundary. -/
theorem validate_fenced_eq_bare :
    ∀ (j : Str) (kvs : List (Str × Json)) (res : AnalysisResult),
      jparseDoc (pstrip j) = some (Json.obj kvs) →
      validateOutput (extract_json_from_llm_output j) = .ok res →
      validateOutput (extract_json_from_llm_output (lc "```json\n" ++ j ++ lc "\n```"))
        = .ok res := by
  intro j kvs res hparse hbare
  suffices hx : extract_json_from_llm_output (lc "```json\n" ++ j ++ lc "\n```")
      = extract_json_from_llm_output j by
    rw [hx]
    exact hbare
  -- unpack the parse of the stripped bare text
  unfold jparseDoc at hparse
  cases hV : pVal (2 * (pstrip j).length + 4) (pstrip j) with
  | none => rw [hV] at hparse; simp at hparse
  | some vr =>
    obtain ⟨v, rr⟩ := vr
    rw [hV] at hparse
    dsimp only at hparse
    split at hparse
    case isFalse => simp at hparse
    case isTrue hall =>
    obtain ⟨c, hc, hIc⟩ := (parser_inv _).1 _ v rr hV
    -- the parse consumes the whole stripped text
    have hrr : rr = [] := by
      match rr with
      | [] => rfl
      | x :: rx =>
        exfalso
        have hlast : (pstrip j).getLast? = (x :: rx).getLast? := by
          rw [hc]
          exact List.getLast?_append_of_ne_nil _ (by simp)
        have hd : (x :: rx).getLast? = some ((x :: rx).getLast (by simp)) :=
          List.getLast?_eq_getLast_of_ne_nil (by simp)
        have hsp : pySpace ((x :: rx).getLast (by simp)) = true :=
          List.all_eq_true.mp hall _ (List.getLast_mem _)
        have := pstrip_last_not_space (s := j) (hd ▸ hlast)
        rw [hsp] at this
        simp at this
    subst hrr
    rw [List.append_nil] at hc
    rw [← hc] at hIc
    obtain ⟨hI1, hI2, hI3, hI4⟩ := hIc
    have hsne : pstrip j ≠ [] := by
      intro h0
      rw [h0] at hV
      have hnone : pVal (2 * ([] : Str).length + 4) ([] : Str) = none := rfl
      rw [hnone] at hV
      simp at hV
    have hh : ∀ d, (pstrip j).head? = some d → pySpace d = false :=
      fun _ hd => pstrip_head_not_space hd
    have hl : ∀ d, (pstrip j).getLast? = some d → pySpace d = false :=
      fun _ hd => pstrip_last_not_space hd
    -- the bare side extracts exactly the stripped text
    have hbare_ex : extract_json_from_llm_output j = pstrip j := by
      unfold extract_json_from_llm_output fenceSub
      rw [fenceSubF_id _ _ _ (Nat.lt_succ_self _) hI1 hI2 hI4 (fun _ => hI3)]
      have := pstrip_append_ws (pstrip j) [] hsne hh hl (by simp)
      simpa using this
    -- notation for the two whitespace margins of j
    have hsplit := strip_split j
    set lws := j.takeWhile pySpace with hlws_def
    set tws := ((j.dropWhile pySpace).reverse.takeWhile pySpace).reverse with htws_def
    have hlws : ∀ a ∈ lws, pySpace a = true := fun a ha => List.mem_takeWhile_imp ha
    have htws : ∀ a ∈ tws, pySpace a = true := by
      intro a ha
      rw [htws_def] at ha
      exact List.mem_takeWhile_imp (by simpa using ha)
    have hIst : Ipred (pstrip j ++ tws) :=
      Ipred_append ⟨hI1, hI2, hI3, hI4⟩ (Ipred_spaces htws)
    obtain ⟨hII1, hII2, hII3, hII4⟩ := hIst
    -- the fenced side
    rw [hbare_ex]
    unfold extract_json_from_llm_output fenceSub
    -- the fenced input is already stripped (backticks at both ends)
    have hFform : lc "```json\n" ++ j ++ lc "\n```"
        = '`' :: ((lc "``json\n" ++ j) ++ lc "\n```") := rfl
    have hFne : lc "```json\n" ++ j ++ lc "\n```" ≠ [] := by
      rw [hFform]; exact List.cons_ne_nil _ _
    have hFhead : ∀ d, (lc "```json\n" ++ j ++ lc "\n```").head? = some d →
        pySpace d = false := by
      intro d hd
      rw [hFform] at hd
      simp only [List.head?_cons, Option.some_inj] at hd
      rw [← hd]
      decide
    have hFlast : ∀ d, (lc "```json\n" ++ j ++ lc "\n```").getLast? = some d →
        pySpace d = false := by
      intro d hd
      rw [List.getLast?_append_of_ne_nil _ (by simp [lc])] at hd
      have : (lc "\n```").getLast? = some '`' := rfl
      rw [this] at hd
      rw [← Option.some_inj.mp hd]
      decide
    have hpsF := pstrip_append_ws (lc "```json\n" ++ j ++ lc "\n```") [] hFne hFhead hFlast
      (by simp)
    rw [List.append_nil] at hpsF
    rw [hpsF]
    -- the opening fence with its language tag and following whitespace
    rw [hFform]
    rw [fenceSubF_open (('`' :: ((lc "``json\n" ++ j) ++ lc "\n```")).length) '`'
      ((lc "``json\n" ++ j) ++ lc "\n```") (by rfl)]
    have hdrop3 : (('`' : Char) :: ((lc "``json\n" ++ j) ++ lc "\n```")).drop 3
        = 'j' :: 's' :: 'o' :: 'n' :: '\n' :: (j ++ lc "\n```") := rfl
    rw [hdrop3]
    rw [show ciJson ('j' :: 's' :: 'o' :: 'n' :: '\n' :: (j ++ lc "\n```")) = true from rfl]
    rw [if_pos rfl]
    rw [show ('j' :: 's' :: 'o' :: 'n' :: '\n' :: (j ++ lc "\n```")).drop 4
        = '\n' :: (j ++ lc "\n```") from rfl]
    rw [show ('\n' :: (j ++ lc "\n```")).dropWhile pySpace
        = (j ++ lc "\n```").dropWhile pySpace from by
      rw [List.dropWhile_cons, if_pos (by decide)]]
    -- peel the whitespace margins of j off
    have hjdecomp : j ++ lc "\n```" = lws ++ (pstrip j ++ (tws ++ lc "\n```")) := by
      conv_lhs => rw [hsplit]
      simp [List.append_assoc]
    obtain ⟨p0, ps', hps⟩ : ∃ p0 ps', pstrip j = p0 :: ps' := by
      match hps0 : pstrip j with
      | [] => exact absurd hps0 hsne
      | p0 :: ps' => exact ⟨p0, ps', rfl⟩
    have hdropj : (j ++ lc "\n```").dropWhile pySpace
        = (pstrip j ++ tws) ++ lc "\n```" := by
      rw [hjdecomp, dropWhile_all_append _ _ hlws, hps]
      rw [show (p0 :: ps') ++ (tws ++ lc "\n```")
        = p0 :: (ps' ++ (tws ++ lc "\n```")) from rfl]
      rw [List.dropWhile_cons, if_neg (by simp [hh p0 (by rw [hps]; rfl)])]
      simp [List.append_assoc]
    rw [hdropj]
    -- the closing fence
    have hfuel : (pstrip j ++ tws).length + 4
        < ('`' :: ((lc "``json\n" ++ j) ++ lc "\n```")).length := by
      have hjlen : j.length = lws.length + (pstrip j).length + tws.length := by
        conv_lhs => rw [hsplit]
        simp only [List.length_append]
      simp only [List.length_cons, List.length_append, hjlen]
      have h8 : (lc "``json\n").length = 7 := rfl
      have h4 : (lc "\n```").length = 4 := rfl
      rw [h8, h4]
      omega
    rw [fenceSubF_tail (pstrip j ++ tws) _ _ hfuel hII1 hII2 hII4 (fun _ => hII3)]
    -- final strip
    rw [show (pstrip j ++ tws) ++ ['\n'] = pstrip j ++ (tws ++ ['\n']) from by
      simp [List.append_assoc]]
    apply pstrip_append_ws (pstrip j) (tws ++ ['\n']) hsne hh hl
    intro a ha
    rcases List.mem_append.mp ha with h1 | h1
    · exact htws a h1
    · rw [List.mem_singleton.mp h1]
      decide

/-- Witness for `validate_fenced_eq_bare` at a concrete JSON object. -/
theorem validate_fenced_eq_bare_witness :
    validateOutput (extract_json_from_llm_output
        (lc "```json\n" ++ sampleResponse ++ lc "\n```"))
      = .ok ⟨JNum.toRat ⟨90, 0⟩, [lc "Python"], [], [lc "backend"], [],
          lc "Strong match", none⟩ :=
  validate_fenced_eq_bare sampleResponse
    [(lc "matching_score", .num ⟨90, 0⟩),
     (lc "matched_skills", .arr [.str (lc "Python")]),
     (lc "missing_skills", .arr []),
     (lc "matched_experience", .arr [.str (lc "backend")]),
     (lc "missing_experience", .arr []),
     (lc "summary", .str (lc "Strong match"))]
    ⟨JNum.toRat ⟨90, 0⟩, [lc "Python"], [], [lc "backend"], [], lc "Strong match", none⟩
    (by rfl) (by rfl)

end ResumeAI
